import Mathlib

/-!
Shallow embedding of the SAMPIClyser waveform-reconstruction core
(`src/sampiclyser/sampic_tools.py`): the waveform extractor
`select_waveforms`, the circular-buffer aligner
`reorder_circular_samples_with_trigger`, and the interpolation engine
(`windowed_sinc_interpolation`, `lanczos_interpolation`,
`apply_interpolation_method`).

Modelling conventions:
- NumPy 1-D arrays are Lean lists; floating-point values are modelled as
  real numbers (interpolation engine) or rationals (opaque sample payloads).
- Python exceptions are `Except String`; each raise site keeps the wording
  of the original message (format-string interpolations dropped).
- `np.roll(a, s)` moves the element at index `i` to `(i + s) mod n`; it is
  embedded through `List.rotate`.
- Assigning `a[i] = v` with a possibly negative Python index is embedded by
  `pySetIdx`, which reproduces Python semantics exactly: indices in
  `[-n, n)` wrap via `i mod n`, anything else is an `IndexError`.
-/

namespace Sampiclyser

/-- `np.roll l s`: the element at index `i` moves to `(i + s) mod n`.
`List.rotate` moves elements the other way, so we rotate by `(-s) mod n`. -/
def np_roll {α : Type} (l : List α) (s : ℤ) : List α :=
  l.rotate ((-s % (l.length : ℤ)).toNat)

/-- Python list/array element assignment `l[i] = v` for `i : ℤ`: indices in
`[-n, n)` are valid (negative ones count from the end, i.e. wrap by
`i mod n`); anything else raises an `IndexError`. -/
def pySetIdx (l : List ℤ) (i : ℤ) (v : ℤ) : Except String (List ℤ) :=
  if 0 ≤ i + l.length ∧ i < l.length then
    .ok (l.set (i % (l.length : ℤ)).toNat v)
  else
    .error "index out of bounds"

/-! ## WaveformExtractor: `select_waveforms` -/

/-- One row of a columnar batch, with the six required fields
`HITNumber`, `Channel`, `Baseline`, `DataSize`, `TriggerPosition`,
`DataSample`.  The schema check of the source cannot fail in this typed
embedding, so it is not modelled.  Floating payloads are rationals (the
extractor only passes them through). -/
structure SRow where
  hid : ℤ
  ch : ℤ
  bl : ℚ
  n : ℤ
  tp : List ℤ
  data : List ℚ
deriving DecidableEq, Repr

/-- The tuple yielded per waveform:
`(hit_number, channel, baseline, n_samples, trigger_positions, samples)`. -/
abbrev WRec := ℤ × ℤ × ℚ × ℤ × List ℤ × List ℚ

/-- The tuple the generator yields for a row (the source's
`int(hid), int(ch), float(bl), int(n), np.asarray(tp), np.asarray(data)`,
all identity conversions here). -/
def rowRec (r : SRow) : WRec := (r.hid, r.ch, r.bl, r.n, r.tp, r.data)

/-- `channel_filter is None or ch in channel_filter` (the set is modelled
as a list with membership). -/
def passesFilter (filt : Option (List ℤ)) (r : SRow) : Bool :=
  match filt with
  | none => true
  | some s => s.contains r.ch

/-- Inner per-batch loop of `select_waveforms`: walks the rows of one batch
carrying the shared `count` and `yielded` counters; the `Bool` reports
whether the `return` statement (reached when `yielded >= num_hits`) fired,
which terminates the whole generator. -/
def selectBatchRows (filt : Option (List ℤ)) (firstHit numHits : ℕ) :
    List SRow → ℕ → ℕ → List WRec × ℕ × ℕ × Bool
  | [], count, yielded => ([], count, yielded, false)
  | r :: rest, count, yielded =>
    if passesFilter filt r = false then
      selectBatchRows filt firstHit numHits rest (count + 1) yielded
    else if count < firstHit then
      selectBatchRows filt firstHit numHits rest (count + 1) yielded
    else if numHits ≤ yielded then
      ([], count, yielded, true)
    else
      let t := selectBatchRows filt firstHit numHits rest (count + 1) (yielded + 1)
      (rowRec r :: t.1, t.2)

/-- Outer loop of `select_waveforms` over the batches. -/
def selectBatches (filt : Option (List ℤ)) (firstHit numHits : ℕ) :
    List (List SRow) → ℕ → ℕ → List WRec
  | [], _, _ => []
  | b :: bs, count, yielded =>
    let t := selectBatchRows filt firstHit numHits b count yielded
    t.1 ++ (if t.2.2.2 then [] else selectBatches filt firstHit numHits bs t.2.1 t.2.2.1)

/-- `select_waveforms(batches, first_hit, num_hits, channel_filter)`:
flattens the batches row by row, skipping rows while the shared counter is
below `first_hit`, dropping rows that fail the channel filter, and
stopping for good once `num_hits` rows have been yielded.  The emitted
records are collected into a list (the generator is a finite pull-based
sequence). -/
def select_waveforms (batches : List (List SRow)) (first_hit num_hits : ℕ)
    (channel_filter : Option (List ℤ)) : List WRec :=
  selectBatches channel_filter first_hit num_hits batches 0 0

/-- Reference single-list form of the extractor loop, used to relate the
two-level batch loop to a flat traversal of all rows. -/
def selectRows (filt : Option (List ℤ)) (firstHit numHits : ℕ) :
    List SRow → ℕ → ℕ → List WRec
  | [], _, _ => []
  | r :: rest, count, yielded =>
    if passesFilter filt r = false then
      selectRows filt firstHit numHits rest (count + 1) yielded
    else if count < firstHit then
      selectRows filt firstHit numHits rest (count + 1) yielded
    else if numHits ≤ yielded then
      []
    else
      rowRec r :: selectRows filt firstHit numHits rest (count + 1) (yielded + 1)

/-! ## CircularBufferAligner: `reorder_circular_samples_with_trigger` -/

/-- `np.flatnonzero(trig_arr == 1)`: the (sorted) positions holding `1`. -/
def onesIdx (trig : List ℤ) : List ℕ :=
  (List.range trig.length).filter (fun i => trig.getD i 0 == 1)

/-- `np.nonzero(np.diff(ones_idx) != 1)[0]`: the positions `t` (into the
difference array) where the sorted run of one-indices breaks.  Since
`onesIdx` is strictly increasing, `diff != 1` is `next != cur + 1`. -/
def breaksIdx (trig : List ℤ) : List ℕ :=
  (List.range ((onesIdx trig).length - 1)).filter
    (fun t => !((onesIdx trig).getD (t + 1) 0 == (onesIdx trig).getD t 0 + 1))

/-- The validation part of `reorder_circular_samples_with_trigger`:
requires at least one `1` and exactly one circularly contiguous block of
`1`s, and returns the logical start of the block (`ones_idx[0]` for a
linear run, `ones_idx[brk + 1]` for the single wrap-around run). -/
def findStart (trig : List ℤ) : Except String ℕ :=
  if (onesIdx trig).isEmpty then
    .error "trig_arr must contain at least one 1"
  else if (breaksIdx trig).length = 0 then
    .ok ((onesIdx trig).headD 0)
  else if (breaksIdx trig).length = 1 ∧ (onesIdx trig).headD 0 = 0 ∧
      (onesIdx trig).getLastD 0 = trig.length - 1 then
    .ok ((onesIdx trig).getD ((breaksIdx trig).headD 0 + 1) 0)
  else
    .error "1s must form exactly one contiguous block (possibly wrapping) in trig_arr"

/-- `shift = (n - m) - start` as computed by the aligner (an integer, and
negative in the wrap case). -/
def alignShift (trig : List ℤ) : Except String ℤ :=
  (findStart trig).map
    (fun start => ((trig.length : ℤ) - (onesIdx trig).length) - start)

/-- `reorder_circular_samples_with_trigger(trig_arr, samp_arr,
reorder_samples)`: validates the shapes and the trigger block, rolls the
trigger mask (and optionally the samples) by `shift`, and builds the
one-hot `start_indicator` by the assignment `start_indicator[shift] = 1`
(Python negative indexing, via `pySetIdx`). -/
def reorder_circular_samples_with_trigger (trig_arr : List ℤ) (samp_arr : List ℚ)
    (reorder_samples : Bool) : Except String (List ℤ × List ℚ × List ℤ) :=
  if trig_arr.length ≠ samp_arr.length then
    .error "trig_arr and samp_arr must have the same shape"
  else
    (alignShift trig_arr).bind (fun shift =>
      (pySetIdx (List.replicate trig_arr.length 0) shift 1).map
        (fun start_indicator =>
          (np_roll trig_arr shift,
           if reorder_samples then np_roll samp_arr shift else samp_arr,
           start_indicator)))

/-- The positions holding `1` in `trig` form one circularly contiguous
block of length `m` whose logical start is `s`: position `i` holds `1`
exactly when `(i - s) mod n < m` (written over naturals as
`(i + (n - s)) mod n < m`). -/
def OneBlock (trig : List ℤ) (s m : ℕ) : Prop :=
  ∀ i < trig.length, (trig.getD i 0 = 1 ↔ (i + (trig.length - s)) % trig.length < m)

/-- The trigger mask is valid for the aligner: its `1`s are non-empty and
form exactly one contiguous block under circular adjacency. -/
def isCircBlock (trig : List ℤ) : Prop :=
  ∃ s m, s < trig.length ∧ 1 ≤ m ∧ m ≤ trig.length ∧ OneBlock trig s m

/-! ## InterpolationEngine -/

/-- `np.sinc`: the normalized sinc `sin(pi x) / (pi x)`, with value `1`
at `x = 0`. -/
noncomputable def sinc (x : ℝ) : ℝ :=
  if x = 0 then 1 else Real.sin (Real.pi * x) / (Real.pi * x)

/-- `np.round` to an integer: round half to even (banker's rounding); away
from exact halves it agrees with rounding to the nearest integer. -/
noncomputable def npRound (x : ℝ) : ℤ :=
  if x - ⌊x⌋ = 1 / 2 then (if Even ⌊x⌋ then ⌊x⌋ else ⌊x⌋ + 1) else round x

/-- `arr.min()` for a NumPy array (defined as `0` on the empty list, which
the source never reaches without first raising). -/
def listMin : List ℝ → ℝ
  | [] => 0
  | x :: xs => xs.foldl min x

/-- `arr.max()`. -/
def listMax : List ℝ → ℝ
  | [] => 0
  | x :: xs => xs.foldl max x

/-- `np.diff l`: consecutive differences `l[i+1] - l[i]`. -/
def npDiff (l : List ℝ) : List ℝ :=
  List.zipWith (fun a b => b - a) l l.tail

/-- `np.allclose(np.diff l, T, atol)` with NumPy's default relative
tolerance `rtol = 1e-5`: every difference `d` satisfies
`|d - T| <= atol + 1e-5 * |T|`. -/
def allcloseDiff (l : List ℝ) (T atol : ℝ) : Prop :=
  ∀ d ∈ npDiff l, |d - T| ≤ atol + 1e-5 * |T|

/-- A uniformly spaced time grid `t0 + i * T`, `i = 0 .. N-1`. -/
noncomputable def uniformGrid (t0 T : ℝ) (N : ℕ) : List ℝ :=
  (List.range N).map (fun i : ℕ => t0 + (i : ℝ) * T)

/-- `np.linspace a b num` (with both endpoints included for `num >= 2`;
`[a]` for `num = 1`, `[]` for `num = 0`, matching NumPy). -/
noncomputable def linspace (a b : ℝ) (num : ℕ) : List ℝ :=
  (List.range num).map (fun i : ℕ => a + (i : ℝ) * ((b - a) / ((num : ℝ) - 1)))

/-- The raw Hann / Hamming window tap at offset `k`
(`0.5 + 0.5 cos(2 pi k / (2M+1))`, resp. `0.54 + 0.46 cos(...)`). -/
noncomputable def wWin (window : String) (M : ℤ) (k : ℤ) : ℝ :=
  if window = "hann" then
    0.5 + 0.5 * Real.cos (2 * Real.pi * k / (2 * M + 1))
  else
    0.54 + 0.46 * Real.cos (2 * Real.pi * k / (2 * M + 1))

/-- The window normalized so its center tap is `1` (`w = w / w[M]`). -/
noncomputable def wNorm (window : String) (M : ℤ) (k : ℤ) : ℝ :=
  wWin window M k / wWin window M 0

open Classical in
/-- One output sample of `windowed_sinc_interpolation`: center the kernel
at the original index nearest to `tn`, and sum
`y[idx] * sinc((tn - t[idx]) / T) * w[k]` over the in-bounds kernel taps
(out-of-bounds taps are omitted, i.e. contribute `0`). -/
noncomputable def wsAt (t_orig y_orig : List ℝ) (T : ℝ) (window : String) (M : ℤ)
    (tn : ℝ) : ℝ :=
  let n0 := npRound ((tn - t_orig.headD 0) / T)
  ∑ k ∈ Finset.Icc (-M) M,
    (if 0 ≤ n0 + k ∧ n0 + k < (t_orig.length : ℤ) then
      y_orig.getD (n0 + k).toNat 0 * sinc ((tn - t_orig.getD (n0 + k).toNat 0) / T) *
        wNorm window M k
    else 0)

open Classical in
/-- `windowed_sinc_interpolation(t_orig, y_orig, t_new, window, M)`.
The 1-D shape checks are inherent to lists; the `t_new.min()` /
`t_new.max()` range test is expressed with bounded quantifiers (NumPy's
reduction error on empty `t_new` is unreachable from the dispatcher and is
not modelled).  A negative `M` makes `w` empty so that `w[M]` raises an
`IndexError`, modelled by the corresponding error branch. -/
noncomputable def windowed_sinc_interpolation (t_orig y_orig t_new : List ℝ)
    (window : String) (M : ℤ) : Except String (List ℝ) :=
  if t_orig.length < 2 then
    .error "Need at least two original samples for interpolation"
  else if (∃ t ∈ t_new, t < listMin t_orig) ∨ (∃ t ∈ t_new, listMax t_orig < t) then
    .error "t_new values must lie within the range of t_orig"
  else if ¬ (window = "hann" ∨ window = "hamming") then
    .error "Unknown window type"
  else if ¬ allcloseDiff t_orig (t_orig.getD 1 0 - t_orig.getD 0 0)
      (1e-8 * (t_orig.getD 1 0 - t_orig.getD 0 0)) then
    .error "t_orig must be uniformly spaced"
  else if M < 0 then
    .error "index out of range"
  else
    .ok (t_new.map (wsAt t_orig y_orig (t_orig.getD 1 0 - t_orig.getD 0 0) window M))

/-- The Lanczos kernel `L(x) = sinc(x) * sinc(x / a)`. -/
noncomputable def lanKernel (a : ℤ) (x : ℝ) : ℝ :=
  sinc x * sinc (x / (a : ℝ))

open Classical in
/-- One output sample of `lanczos_interpolation`: kernel support
`k = m - a + 1 .. m + a` around the fractional position, out-of-bounds
taps dropped, and the truncated kernel renormalized to unit sum (the
source divides the kernel by its sum before the dot product; algebraically
that is the dot product divided by the sum). -/
noncomputable def lanAt (t_orig y_orig : List ℝ) (T : ℝ) (a : ℤ) (tn : ℝ) : ℝ :=
  let m := ⌊(tn - t_orig.headD 0) / T⌋
  (∑ k ∈ Finset.Icc (m - a + 1) (m + a),
    (if 0 ≤ k ∧ k < (t_orig.length : ℤ) then
      y_orig.getD k.toNat 0 * lanKernel a ((tn - t_orig.getD k.toNat 0) / T)
    else 0)) /
  (∑ k ∈ Finset.Icc (m - a + 1) (m + a),
    (if 0 ≤ k ∧ k < (t_orig.length : ℤ) then
      lanKernel a ((tn - t_orig.getD k.toNat 0) / T)
    else 0))

open Classical in
/-- `lanczos_interpolation(t_orig, y_orig, t_new, a)`.  Note the source
has no explicit two-sample minimum: with fewer than two samples it would
fault on `t_orig[1]` (unreachable through the claims, which require
length at least 2). -/
noncomputable def lanczos_interpolation (t_orig y_orig t_new : List ℝ)
    (a : ℤ) : Except String (List ℝ) :=
  if t_orig.length ≠ y_orig.length then
    .error "t_orig and y_orig must have the same length"
  else if a < 1 then
    .error "Lanczos order a must be a positive integer"
  else if (∃ t ∈ t_new, t < listMin t_orig) ∨ (∃ t ∈ t_new, listMax t_orig < t) then
    .error "t_new values must lie within the range of t_orig"
  else if ¬ allcloseDiff t_orig (t_orig.getD 1 0 - t_orig.getD 0 0)
      (1e-8 * |t_orig.getD 1 0 - t_orig.getD 0 0|) then
    .error "t_orig must be uniformly spaced"
  else
    .ok (t_new.map (lanAt t_orig y_orig (t_orig.getD 1 0 - t_orig.getD 0 0) a))

/-- Modelled from the spec: `scipy.signal.resample(y, num, t)` is external
library code; only its interface is modelled.  It returns `num` output
samples together with its own time axis
`t[0] + arange(num) * (t[1] - t[0]) * len(y) / num` (the fft-resample grid
the spec says must be returned verbatim).  The frequency-domain output
values themselves are opaque here and modelled as zeros. -/
noncomputable def scipy_resample (y : List ℝ) (num : ℕ) (t : List ℝ) :
    List ℝ × List ℝ :=
  ((List.range num).map (fun _ => 0),
   (List.range num).map
     (fun i : ℕ => t.headD 0 + (i : ℝ) * ((t.getD 1 0 - t.getD 0 0) * y.length / num)))

/-- Modelled from the spec: `scipy.signal.resample_poly(y, up, 1, ...)` is
external library code; only its output-length contract is modelled — with
down-factor `1` it produces exactly `len(y) * up` samples.  The filtered
values are opaque here and modelled as zeros. -/
noncomputable def scipy_resample_poly (y : List ℝ) (up : ℕ) : List ℝ :=
  (List.range (y.length * up)).map (fun _ => 0)

open Classical in
/-- `apply_interpolation_method(x_orig, y_orig, period, method, factor,
parameter, offset)`: validates shapes and factor, builds the nominal fine
grid `linspace(x_orig[0], x_orig[-1], len(x_orig) * factor)`, subtracts
the offset, dispatches on the lower-cased method name, and adds the
offset back.  An empty `x_orig` faults on `x_orig[0]` (IndexError).  For
`resample` the time axis returned by the underlying algorithm replaces
the nominal grid.  The source lower-cases the method string before
dispatching; the claims only exercise lower-case names and case folding is
not modelled (`String.toLower` is not kernel-reducible). -/
noncomputable def apply_interpolation_method (x_orig y_orig : List ℝ) (period : ℝ)
    (interpolation_method : Option String) (interpolation_factor : ℤ)
    (interpolation_parameter : ℤ) (offset : Option ℝ) :
    Except String (List ℝ × List ℝ) :=
  if x_orig.length ≠ y_orig.length then
    .error "x_orig and y_orig must have the same length"
  else if interpolation_factor < 1 then
    .error "interpolation_factor must be at least 1"
  else if x_orig.isEmpty then
    .error "index 0 is out of bounds"
  else
    let o := offset.getD 0
    let num_fine := x_orig.length * interpolation_factor.toNat
    let x_fine := linspace (x_orig.headD 0) (x_orig.getLastD 0) num_fine
    let method := interpolation_method.getD ""
    if method = "sinc" then
      .ok (x_fine, x_fine.map (fun t =>
        (∑ j ∈ Finset.range x_orig.length,
          sinc ((t - x_orig.getD j 0) / period) * (y_orig.getD j 0 - o)) + o))
    else if method = "hann" ∨ method = "hamming" then
      (windowed_sinc_interpolation x_orig (y_orig.map (fun v => v - o)) x_fine
          method interpolation_parameter).map
        (fun yf => (x_fine, yf.map (fun v => v + o)))
    else if method = "lanczos" then
      (lanczos_interpolation x_orig (y_orig.map (fun v => v - o)) x_fine
          interpolation_parameter).map
        (fun yf => (x_fine, yf.map (fun v => v + o)))
    else if method = "resample" then
      let r := scipy_resample (y_orig.map (fun v => v - o)) num_fine x_orig
      .ok (r.2, r.1.map (fun v => v + o))
    else if method = "resample_poly" then
      .ok (x_fine,
        (scipy_resample_poly (y_orig.map (fun v => v - o))
            interpolation_factor.toNat).map (fun v => v + o))
    else
      .error "Unknown interpolation method"

/-! ## Lemmas: WaveformExtractor -/

/-- Declarative form of the extractor: enumerate all rows with their
global position, keep the rows that pass the channel filter and whose
position is at least `first_hit`, truncate to `num_hits`, and yield the
record tuples. -/
def selectSpec (rows : List SRow) (first_hit num_hits : ℕ)
    (filt : Option (List ℤ)) : List WRec :=
  (((rows.enum).filter
      (fun p => passesFilter filt p.2 && decide (first_hit ≤ p.1))).take num_hits).map
    (fun p => rowRec p.2)

theorem selectRows_append (filt : Option (List ℤ)) (fh nh : ℕ) (b rest : List SRow) :
    ∀ c y : ℕ,
      selectRows filt fh nh (b ++ rest) c y =
        (selectBatchRows filt fh nh b c y).1 ++
          (if (selectBatchRows filt fh nh b c y).2.2.2 then []
           else selectRows filt fh nh rest (selectBatchRows filt fh nh b c y).2.1
             (selectBatchRows filt fh nh b c y).2.2.1) := by
  induction b with
  | nil => intro c y; simp [selectBatchRows]
  | cons r b ih =>
    intro c y
    by_cases hp : passesFilter filt r = false
    · simp only [List.cons_append, selectRows, selectBatchRows, hp, if_true,
        if_pos rfl]
      simpa using ih (c + 1) y
    · by_cases hc : c < fh
      · simp only [List.cons_append, selectRows, selectBatchRows, hp, if_neg hp,
          if_pos hc]
        simpa using ih (c + 1) y
      · by_cases hy : nh ≤ y
        · simp [List.cons_append, selectRows, selectBatchRows, hp, hc, hy]
        · simp only [List.cons_append, selectRows, selectBatchRows, if_neg hp,
            if_neg hc, if_neg hy]
          simpa using ih (c + 1) (y + 1)

theorem selectBatches_eq_selectRows (filt : Option (List ℤ)) (fh nh : ℕ)
    (bs : List (List SRow)) : ∀ c y : ℕ,
    selectBatches filt fh nh bs c y = selectRows filt fh nh bs.flatten c y := by
  induction bs with
  | nil => intro c y; simp [selectBatches, selectRows]
  | cons b bs ih =>
    intro c y
    show _ = selectRows filt fh nh (b ++ bs.flatten) c y
    rw [selectRows_append]
    by_cases hh : (selectBatchRows filt fh nh b c y).2.2.2
    · simp [selectBatches, hh]
    · simp [selectBatches, hh, ih]

theorem selectRows_spec (filt : Option (List ℤ)) (fh nh : ℕ) (rows : List SRow) :
    ∀ c y : ℕ, y ≤ nh →
      selectRows filt fh nh rows c y =
        (((rows.enumFrom c).filter
            (fun p => passesFilter filt p.2 && decide (fh ≤ p.1))).take (nh - y)).map
          (fun p => rowRec p.2) := by
  induction rows with
  | nil => intro c y _; simp [selectRows]
  | cons r rest ih =>
    intro c y hy
    by_cases hp : passesFilter filt r = false
    · simp [selectRows, hp, List.enumFrom, ih c.succ y hy]
    · by_cases hc : c < fh
      · have hfh : ¬ fh ≤ c := by omega
        simp [selectRows, hp, hc, List.enumFrom, hfh,
          ih c.succ y hy, eq_true_of_ne_false hp]
      · have hfh : fh ≤ c := by omega
        by_cases hys : nh ≤ y
        · have : nh - y = 0 := by omega
          simp [selectRows, hp, hc, hys, this]
        · have hys' : y + 1 ≤ nh := by omega
          have htake : nh - y = (nh - (y + 1)) + 1 := by omega
          simp [selectRows, hp, hc, hys, List.enumFrom, hfh,
            eq_true_of_ne_false hp, htake, ih c.succ (y + 1) hys']

/-- The extractor equals its declarative form. -/
theorem select_waveforms_eq_spec (batches : List (List SRow)) (fh nh : ℕ)
    (filt : Option (List ℤ)) :
    select_waveforms batches fh nh filt = selectSpec batches.flatten fh nh filt := by
  unfold select_waveforms selectSpec
  rw [selectBatches_eq_selectRows, selectRows_spec _ _ _ _ 0 0 (Nat.zero_le _)]
  simp [List.enum]

theorem enumFrom_map_snd (l : List SRow) : ∀ c : ℕ,
    (l.enumFrom c).map Prod.snd = l := by
  induction l with
  | nil => intro c; rfl
  | cons r rest ih => intro c; simp [List.enumFrom, ih]

theorem enumFrom_append (a b : List SRow) : ∀ c : ℕ,
    (a ++ b).enumFrom c = a.enumFrom c ++ b.enumFrom (c + a.length) := by
  induction a with
  | nil => intro c; simp [List.enumFrom]
  | cons r rest ih =>
    intro c
    have h := ih (c + 1)
    simp only [List.cons_append, List.enumFrom, List.length_cons]
    rw [show rest.append b = rest ++ b from rfl, h]
    have h2 : c + 1 + rest.length = c + (rest.length + 1) := by omega
    rw [h2]

theorem map_rowRec_enumFrom (l : List SRow) (c : ℕ) :
    (l.enumFrom c).map (fun p => rowRec p.2) = l.map rowRec := by
  have h : (fun p : ℕ × SRow => rowRec p.2) = rowRec ∘ Prod.snd := rfl
  rw [h, ← List.map_map, enumFrom_map_snd]

/-- C7: the extractor yields at most `max_count` records no matter how the
rows are split over batches, the emitted records are a subsequence of the
flattened batch rows (source order preserved), and once `max_count`
records have been emitted the sequence is unchanged by any further
batches (they are never read). -/
theorem select_waveforms_windowing (batches : List (List SRow)) (fh nh : ℕ)
    (filt : Option (List ℤ)) :
    (select_waveforms batches fh nh filt).length ≤ nh ∧
    (select_waveforms batches fh nh filt).Sublist (batches.flatten.map rowRec) ∧
    ((select_waveforms batches fh nh filt).length = nh →
      ∀ more, select_waveforms (batches ++ more) fh nh filt =
        select_waveforms batches fh nh filt) := by
  refine ⟨?_, ?_, ?_⟩
  · rw [select_waveforms_eq_spec]
    simp only [selectSpec, List.length_map, List.length_take]
    exact min_le_left _ _
  · rw [select_waveforms_eq_spec]
    have h1 : ((batches.flatten.enum.filter
        (fun p => passesFilter filt p.2 && decide (fh ≤ p.1))).take nh).Sublist
        batches.flatten.enum :=
      (List.take_sublist _ _).trans (List.filter_sublist _)
    have h2 := h1.map (fun p : ℕ × SRow => rowRec p.2)
    simpa [selectSpec, List.enum, map_rowRec_enumFrom] using h2
  · intro hlen more
    rw [select_waveforms_eq_spec] at hlen ⊢
    rw [select_waveforms_eq_spec]
    have hmin : nh ≤ (batches.flatten.enum.filter
        (fun p => passesFilter filt p.2 && decide (fh ≤ p.1))).length := by
      simp only [selectSpec, List.length_map, List.length_take] at hlen
      omega
    simp only [List.enum] at hmin
    simp only [selectSpec, List.flatten_append, List.enum, enumFrom_append,
      List.filter_append]
    rw [List.take_append_of_le_length hmin]

/-- C8: the extractor equals its declarative form: rows are enumerated by
one global counter that advances for every examined row (filtered or
not), a row is withheld for windowing exactly when its counter value is
below `first_index`, and truncation to `max_count` applies afterwards;
moreover with a channel filter every emitted record's channel belongs to
the filter set. -/
theorem select_waveforms_counter_spec (batches : List (List SRow)) (fh nh : ℕ)
    (filt : Option (List ℤ)) :
    select_waveforms batches fh nh filt = selectSpec batches.flatten fh nh filt ∧
    (∀ S : List ℤ, filt = some S →
      ∀ w ∈ select_waveforms batches fh nh filt, w.2.1 ∈ S) := by
  refine ⟨select_waveforms_eq_spec _ _ _ _, ?_⟩
  intro S hS w hw
  rw [select_waveforms_eq_spec] at hw
  simp only [selectSpec, List.mem_map] at hw
  obtain ⟨p, hp, hpw⟩ := hw
  have hp2 := List.mem_of_mem_take hp
  rw [List.mem_filter] at hp2
  have hpass : passesFilter filt p.2 = true := by
    have := hp2.2
    simp only [Bool.and_eq_true] at this
    exact this.1
  rw [hS] at hpass
  simp only [passesFilter] at hpass
  have : p.2.ch ∈ S := List.mem_of_elem_eq_true hpass
  rw [← hpw]
  exact this

/-- Witness for C7 at a concrete input: with `max_count = 1` already
reached on the first batch, appending another batch does not change the
output, and the output length is bounded. -/
theorem select_waveforms_windowing_witness :
    select_waveforms ([[⟨1, 2, 0, 0, [], []⟩]] ++ [[⟨2, 3, 0, 0, [], []⟩]]) 0 1 none =
      select_waveforms [[⟨1, 2, 0, 0, [], []⟩]] 0 1 none ∧
    (select_waveforms [[⟨1, 2, 0, 0, [], []⟩]] 0 1 none).length ≤ 1 :=
  ⟨(select_waveforms_windowing [[⟨1, 2, 0, 0, [], []⟩]] 0 1 none).2.2 (by decide)
      [[⟨2, 3, 0, 0, [], []⟩]],
   (select_waveforms_windowing [[⟨1, 2, 0, 0, [], []⟩]] 0 1 none).1⟩

/-! ## Lemmas: CircularBufferAligner -/

theorem mem_onesIdx {trig : List ℤ} {i : ℕ} :
    i ∈ onesIdx trig ↔ i < trig.length ∧ trig.getD i 0 = 1 := by
  simp [onesIdx, List.mem_filter, List.mem_range]

theorem onesIdx_sorted (trig : List ℤ) : (onesIdx trig).Sorted (· < ·) :=
  List.Pairwise.sublist (List.filter_sublist _) (List.pairwise_lt_range _)

theorem onesIdx_length_le (trig : List ℤ) : (onesIdx trig).length ≤ trig.length := by
  have h := (List.filter_sublist (l := List.range trig.length)
    (p := fun i => trig.getD i 0 == 1)).length_le
  rw [List.length_range] at h
  exact h

theorem sorted_eq_of_mem_iff {l1 l2 : List ℕ} (h1 : l1.Sorted (· < ·))
    (h2 : l2.Sorted (· < ·)) (hm : ∀ x, x ∈ l1 ↔ x ∈ l2) : l1 = l2 :=
  List.eq_of_perm_of_sorted ((List.perm_ext_iff_of_nodup h1.nodup h2.nodup).2 hm) h1 h2

/-- Arithmetic heart of the circular-block predicate: for `i, s < n` the
wrapped-offset test `(i + (n - s)) % n < m` says `i` lies in the circular
interval of length `m` starting at `s`. -/
theorem oneblock_interval {n s m i : ℕ} (hs : s < n) (hi : i < n) :
    (i + (n - s)) % n < m ↔ (s ≤ i ∧ i < s + m) ∨ i + n < s + m := by
  rcases le_or_lt s i with h | h
  · have h1 : i + (n - s) = (i - s) + n := by omega
    rw [h1, Nat.add_mod_right, Nat.mod_eq_of_lt (by omega)]
    omega
  · rw [Nat.mod_eq_of_lt (by omega)]
    omega

theorem range'_getD {s m t : ℕ} (h : t < m) : (List.range' s m).getD t 0 = s + t := by
  rw [List.getD_eq_getElem _ _ (by simpa using h)]
  simp [List.getElem_range'_1]

theorem headD_eq_getD (l : List ℕ) : l.headD 0 = l.getD 0 0 := by cases l <;> rfl

theorem getLastD_eq_getD (d : ℕ) (l : List ℕ) :
    l.getLastD d = l.getD (l.length - 1) d := by
  induction l generalizing d with
  | nil => rfl
  | cons a t ih =>
    cases t with
    | nil => rfl
    | cons b u =>
      rw [List.getLastD_cons, ih a]
      rw [List.getD_eq_getElem _ _ (by simp), List.getD_eq_getElem _ _ (by simp)]
      simp

/-- `getD` on the two-segment index list of a wrapped block. -/
theorem wrap_getD {q r s t : ℕ} (ht : t < q + r) :
    (List.range' 0 q ++ List.range' s r).getD t 0 =
      if t < q then t else s + (t - q) := by
  rcases lt_or_ge t q with h | h
  · rw [List.getD_eq_getElem _ _ (by simp; omega)]
    rw [List.getElem_append_left (by simpa using h)]
    simp [List.getElem_range'_1, h]
  · rw [List.getD_eq_getElem _ _ (by simp; omega)]
    rw [List.getElem_append_right (by simpa using h)]
    simp only [List.length_range']
    rw [if_neg (by omega)]
    simp [List.getElem_range'_1]

theorem onesIdx_of_oneblock_lin {trig : List ℤ} {s m : ℕ} (hs : s < trig.length)
    (hb : OneBlock trig s m) (hlin : s + m ≤ trig.length) :
    onesIdx trig = List.range' s m := by
  refine sorted_eq_of_mem_iff (onesIdx_sorted trig)
    (List.Pairwise.sublist (by rfl) (List.pairwise_lt_range' _ _)) ?_
  intro x
  rw [mem_onesIdx, List.mem_range'_1]
  constructor
  · rintro ⟨hx, h1⟩
    have := (hb x hx).mp h1
    rw [oneblock_interval hs hx] at this
    omega
  · rintro ⟨hsx, hxm⟩
    have hx : x < trig.length := by omega
    refine ⟨hx, (hb x hx).mpr ?_⟩
    rw [oneblock_interval hs hx]
    omega

theorem onesIdx_of_oneblock_wrap {trig : List ℤ} {s m : ℕ} (hs : s < trig.length)
    (hmn : m ≤ trig.length) (hb : OneBlock trig s m) (hwrap : trig.length < s + m) :
    onesIdx trig =
      List.range' 0 (s + m - trig.length) ++ List.range' s (trig.length - s) := by
  refine sorted_eq_of_mem_iff (onesIdx_sorted trig) ?_ ?_
  · rw [List.Sorted, List.pairwise_append]
    refine ⟨List.pairwise_lt_range' _ _, List.pairwise_lt_range' _ _, ?_⟩
    intro a ha b hb'
    rw [List.mem_range'_1] at ha hb'
    omega
  · intro x
    rw [mem_onesIdx, List.mem_append, List.mem_range'_1, List.mem_range'_1]
    constructor
    · rintro ⟨hx, h1⟩
      have := (hb x hx).mp h1
      rw [oneblock_interval hs hx] at this
      omega
    · intro h
      have hx : x < trig.length := by omega
      refine ⟨hx, (hb x hx).mpr ?_⟩
      rw [oneblock_interval hs hx]
      omega

theorem breaksIdx_of_lin {trig : List ℤ} {s m : ℕ}
    (hones : onesIdx trig = List.range' s m) : breaksIdx trig = [] := by
  unfold breaksIdx
  rw [hones]
  refine List.filter_eq_nil_iff.mpr ?_
  intro t ht
  rw [List.mem_range, List.length_range'] at ht
  rw [range'_getD (by omega), range'_getD (by omega)]
  simp [Nat.add_assoc]

theorem breaksIdx_of_wrap {trig : List ℤ} {q r s : ℕ} (hq : 1 ≤ q) (hqs : q < s)
    (hr : 1 ≤ r)
    (hones : onesIdx trig = List.range' 0 q ++ List.range' s r) :
    breaksIdx trig = [q - 1] := by
  have hlen : (onesIdx trig).length = q + r := by rw [hones]; simp
  refine sorted_eq_of_mem_iff
    (List.Pairwise.sublist (List.filter_sublist _) (List.pairwise_lt_range _))
    (List.sorted_singleton _) ?_
  intro t
  unfold breaksIdx
  rw [List.mem_filter, List.mem_range, hlen, List.mem_singleton, hones]
  constructor
  · rintro ⟨ht, hcond⟩
    by_contra hne
    rw [wrap_getD (by omega), wrap_getD (by omega)] at hcond
    rcases lt_or_ge (t + 1) q with h1 | h1
    · rw [if_pos h1, if_pos (by omega)] at hcond
      simp at hcond
    · have h2 : ¬ t < q := by omega
      rw [if_neg (by omega), if_neg h2] at hcond
      simp at hcond
      omega
  · intro h
    subst h
    have ht : q - 1 < q + r - 1 := by omega
    refine ⟨ht, ?_⟩
    rw [wrap_getD (by omega), wrap_getD (by omega)]
    rw [if_neg (by omega), if_pos (by omega)]
    simp
    omega

/-- On a valid one-block mask (with the canonical start in the all-ones
case) the validation succeeds and returns the logical start, and the run
length is the number of `1`s. -/
theorem findStart_of_oneblock {trig : List ℤ} {s m : ℕ} (hs : s < trig.length)
    (hm1 : 1 ≤ m) (hmn : m ≤ trig.length) (hdeg : m = trig.length → s = 0)
    (hb : OneBlock trig s m) :
    findStart trig = .ok s ∧ (onesIdx trig).length = m := by
  rcases le_or_lt (s + m) trig.length with hlin | hwrap
  · have hones := onesIdx_of_oneblock_lin hs hb hlin
    have hlen : (onesIdx trig).length = m := by rw [hones]; simp
    have hbr := breaksIdx_of_lin hones
    refine ⟨?_, hlen⟩
    unfold findStart
    rw [if_neg (by rw [hones]; simp [List.isEmpty_iff]; omega)]
    rw [if_pos (by rw [hbr]; rfl)]
    rw [hones, headD_eq_getD, range'_getD (by omega)]
    rfl
  · have hmlt : m < trig.length := by
      rcases Nat.lt_or_ge m trig.length with h | h
      · exact h
      · have hm : m = trig.length := by omega
        have := hdeg hm
        omega
    have hones := onesIdx_of_oneblock_wrap hs hmn hb hwrap
    set q := s + m - trig.length with hqdef
    have hq : 1 ≤ q := by omega
    have hs1 : 1 ≤ s := by omega
    have hqs : q < s := by omega
    have hr : 1 ≤ trig.length - s := by omega
    have hbr := breaksIdx_of_wrap hq hqs hr hones
    have hlen : (onesIdx trig).length = m := by rw [hones]; simp; omega
    refine ⟨?_, hlen⟩
    unfold findStart
    rw [if_neg (by rw [hones]; simp [List.isEmpty_iff]; omega)]
    rw [if_neg (by rw [hbr]; simp)]
    rw [if_pos ?cond]
    case cond =>
      refine ⟨by rw [hbr]; rfl, ?_, ?_⟩
      · rw [hones, headD_eq_getD, wrap_getD (by omega), if_pos (by omega)]
      · rw [hones, getLastD_eq_getD]
        have hl : (List.range' 0 q ++ List.range' s (trig.length - s)).length - 1 =
            q + (trig.length - s) - 1 := by simp
        rw [hl, wrap_getD (by omega), if_neg (by omega)]
        omega
    rw [hones, hbr]
    have hhd : ([q - 1] : List ℕ).headD 0 = q - 1 := rfl
    rw [hhd, wrap_getD (by omega), if_neg (by omega)]
    have h0 : q - 1 + 1 - q = 0 := by omega
    rw [h0]
    rfl

theorem np_roll_length {α : Type} (l : List α) (s : ℤ) :
    (np_roll l s).length = l.length := by
  simp [np_roll]

theorem np_roll_getD {α : Type} (l : List α) (sft : ℤ) (d : α) (j : ℕ)
    (hj : j < l.length) :
    (np_roll l sft).getD j d =
      l.getD ((j + (-sft % (l.length : ℤ)).toNat) % l.length) d := by
  have hn : 0 < l.length := by omega
  rw [List.getD_eq_getElem _ _ (by rw [np_roll_length]; exact hj),
    List.getD_eq_getElem _ _ (Nat.mod_lt _ hn)]
  exact List.getElem_rotate l _ j (by simpa [np_roll] using hj)

theorem neg_shift_toNat (n s m : ℕ) (_hn : 0 < n) :
    (-(((n : ℤ) - m) - s) % (n : ℤ)).toNat = (s + m) % n := by
  have h1 : -(((n : ℤ) - m) - s) = ((s : ℤ) + m) - n := by ring
  rw [h1, Int.emod_sub_cancel]
  rw [show ((s : ℤ) + m) = ((s + m : ℕ) : ℤ) by push_cast; ring]
  omega

theorem add_emod_toNat_self (s : ℤ) (n : ℕ) (hn : 0 < n) :
    ((s % n).toNat + (-s % n).toNat) % n = 0 := by
  have h0 : (0 : ℤ) < n := by exact_mod_cast hn
  have h1 : 0 ≤ s % n := Int.emod_nonneg s (by omega)
  have h2 : 0 ≤ -s % n := Int.emod_nonneg _ (by omega)
  have h5 : (((((s % n).toNat + (-s % n).toNat) % n : ℕ)) : ℤ) = 0 := by
    push_cast [Int.toNat_of_nonneg h1, Int.toNat_of_nonneg h2]
    rw [← Int.add_emod]
    simp
  exact_mod_cast h5

theorem np_roll_inv {α : Type} (l : List α) (s : ℤ) :
    np_roll (np_roll l s) (-s) = l := by
  by_cases hn : l.length = 0
  · have h := List.length_eq_zero.mp hn
    subst h
    rfl
  · have hn' : 0 < l.length := by omega
    unfold np_roll
    rw [List.length_rotate, List.rotate_rotate]
    simp only [neg_neg]
    rw [← List.rotate_mod]
    rw [Nat.add_comm, add_emod_toNat_self s l.length hn', List.rotate_zero]

theorem index_chain (n s m j : ℕ) (hs : s ≤ n) :
    ((j + (s + m) % n) % n + (n - s)) % n = (j + m) % n := by
  rw [Nat.mod_add_mod]
  have h1 : j + (s + m) % n + (n - s) = j + (n - s) + (s + m) % n := by omega
  rw [h1, Nat.add_mod_mod]
  have h2 : j + (n - s) + (s + m) = j + m + n := by omega
  rw [h2, Nat.add_mod_right]

theorem mod_window {n m j : ℕ} (hmn : m ≤ n) (hj : j < n) :
    (j + m) % n < m ↔ n - m ≤ j := by
  rcases lt_or_ge (j + m) n with h | h
  · rw [Nat.mod_eq_of_lt h]
    omega
  · rw [Nat.mod_eq_sub_mod h, Nat.mod_eq_of_lt (by omega)]
    omega

theorem rolled_block_getD {trig : List ℤ} {s m : ℕ} (hs : s < trig.length)
    (hmn : m ≤ trig.length) (hb : OneBlock trig s m)
    {j : ℕ} (hj : j < trig.length) :
    (np_roll trig (((trig.length : ℤ) - m) - s)).getD j 0 = 1 ↔
      trig.length - m ≤ j := by
  have hn : 0 < trig.length := by omega
  rw [np_roll_getD _ _ _ _ hj, neg_shift_toNat trig.length s m hn]
  have hidx : (j + (s + m) % trig.length) % trig.length < trig.length :=
    Nat.mod_lt _ hn
  rw [hb _ hidx, index_chain trig.length s m j (le_of_lt hs)]
  exact mod_window hmn hj

theorem findStart_ok_inv {trig : List ℤ} {start : ℕ}
    (h : findStart trig = .ok start) :
    start < trig.length ∧ 1 ≤ (onesIdx trig).length := by
  unfold findStart at h
  by_cases h1 : (onesIdx trig).isEmpty
  · rw [if_pos h1] at h
    cases h
  · rw [if_neg h1] at h
    have hne : onesIdx trig ≠ [] := by simpa [List.isEmpty_iff] using h1
    have hlen1 : 1 ≤ (onesIdx trig).length := by
      have := List.length_pos.mpr hne
      omega
    refine ⟨?_, hlen1⟩
    by_cases h2 : (breaksIdx trig).length = 0
    · rw [if_pos h2] at h
      injection h with h'
      have hmem : start ∈ onesIdx trig := by
        rw [← h', headD_eq_getD, List.getD_eq_getElem _ _ (by omega)]
        exact List.getElem_mem _
      exact (mem_onesIdx.mp hmem).1
    · rw [if_neg h2] at h
      by_cases h3 : (breaksIdx trig).length = 1 ∧ (onesIdx trig).headD 0 = 0 ∧
          (onesIdx trig).getLastD 0 = trig.length - 1
      · rw [if_pos h3] at h
        injection h with h'
        obtain ⟨b0, hb0⟩ := List.length_eq_one.mp h3.1
        have hb0mem : b0 ∈ breaksIdx trig := by rw [hb0]; exact List.mem_singleton.mpr rfl
        have hb0lt : b0 < (onesIdx trig).length - 1 := by
          have := List.mem_filter.mp hb0mem
          simpa [List.mem_range] using this.1
        have hhd : (breaksIdx trig).headD 0 = b0 := by rw [hb0]; rfl
        have hmem : start ∈ onesIdx trig := by
          rw [← h', hhd, List.getD_eq_getElem _ _ (by omega)]
          exact List.getElem_mem _
        exact (mem_onesIdx.mp hmem).1
      · rw [if_neg h3] at h
        cases h

theorem alignShift_ok_inv {trig : List ℤ} {sh : ℤ} (h : alignShift trig = .ok sh) :
    ∃ start, findStart trig = .ok start ∧
      sh = ((trig.length : ℤ) - (onesIdx trig).length) - start ∧
      start < trig.length ∧ 1 ≤ (onesIdx trig).length := by
  unfold alignShift at h
  cases hf : findStart trig with
  | error e => rw [hf] at h; cases h
  | ok st =>
    rw [hf] at h
    injection h with h'
    obtain ⟨h1, h2⟩ := findStart_ok_inv hf
    exact ⟨st, rfl, h'.symm, h1, h2⟩

theorem alignShift_bounds {trig : List ℤ} {sh : ℤ} (h : alignShift trig = .ok sh) :
    0 ≤ sh + trig.length ∧ sh < trig.length := by
  obtain ⟨st, _, hsh, hlt, hm1⟩ := alignShift_ok_inv h
  have hle := onesIdx_length_le trig
  subst hsh
  omega

theorem reorder_eq_of_shift {trig : List ℤ} {samp : List ℚ} {sh : ℤ} (b : Bool)
    (hlen : trig.length = samp.length) (hsh : alignShift trig = .ok sh) :
    reorder_circular_samples_with_trigger trig samp b =
      .ok (np_roll trig sh, if b then np_roll samp sh else samp,
        (List.replicate trig.length (0 : ℤ)).set
          ((sh % (trig.length : ℤ)).toNat) 1) := by
  obtain ⟨hb1, hb2⟩ := alignShift_bounds hsh
  unfold reorder_circular_samples_with_trigger
  rw [if_neg (by omega)]
  rw [hsh]
  show Except.bind _ _ = _
  simp only [Except.bind]
  unfold pySetIdx
  rw [List.length_replicate, if_pos (And.intro hb1 hb2)]
  rfl

theorem reorder_ok_inv {trig : List ℤ} {samp : List ℚ} {b : Bool}
    {tr : List ℤ} {sr : List ℚ} {si : List ℤ}
    (h : reorder_circular_samples_with_trigger trig samp b = .ok (tr, sr, si)) :
    trig.length = samp.length ∧ ∃ sh, alignShift trig = .ok sh ∧
      tr = np_roll trig sh ∧ sr = (if b then np_roll samp sh else samp) ∧
      si = (List.replicate trig.length (0 : ℤ)).set
        ((sh % (trig.length : ℤ)).toNat) 1 := by
  unfold reorder_circular_samples_with_trigger at h
  by_cases h1 : trig.length ≠ samp.length
  · rw [if_pos h1] at h
    cases h
  · rw [if_neg h1] at h
    refine ⟨by omega, ?_⟩
    cases hsh : alignShift trig with
    | error e => rw [hsh] at h; cases h
    | ok sh =>
      rw [hsh] at h
      simp only [Except.bind] at h
      unfold pySetIdx at h
      rw [List.length_replicate] at h
      by_cases h2 : 0 ≤ sh + (trig.length : ℤ) ∧ sh < (trig.length : ℤ)
      · rw [if_pos h2] at h
        simp only [Except.map] at h
        injection h with h'
        rw [Prod.mk.injEq] at h'
        obtain ⟨ha, hrest⟩ := h'
        rw [Prod.mk.injEq] at hrest
        exact ⟨sh, rfl, ha.symm, hrest.1.symm, hrest.2.symm⟩
      · rw [if_neg h2] at h
        cases h

/-- C1: on a mask whose `1`s form one circular block of length `m` with
logical start `s` (canonically `s = 0` when the mask is all ones), the
aligner computes `shift = (n - m) - start`, the returned rotated mask has
its `1`s exactly in the final `m` positions, and rolling the returned mask
back by `-shift` recovers the original mask bit-for-bit. -/
theorem aligner_shift_rotation_correct (trig : List ℤ) (samp : List ℚ) (s m : ℕ)
    (hlen : trig.length = samp.length) (hs : s < trig.length) (hm1 : 1 ≤ m)
    (hmn : m ≤ trig.length) (hdeg : m = trig.length → s = 0)
    (hb : OneBlock trig s m) :
    alignShift trig = .ok (((trig.length : ℤ) - m) - s) ∧
    ∃ tr sr si,
      reorder_circular_samples_with_trigger trig samp true = .ok (tr, sr, si) ∧
      (∀ j, j < trig.length → (tr.getD j 0 = 1 ↔ trig.length - m ≤ j)) ∧
      np_roll tr (-(((trig.length : ℤ) - m) - s)) = trig := by
  obtain ⟨hfs, hml⟩ := findStart_of_oneblock hs hm1 hmn hdeg hb
  have hash : alignShift trig = .ok (((trig.length : ℤ) - m) - s) := by
    unfold alignShift
    rw [hfs]
    simp [Except.map, hml]
  refine ⟨hash, _, _, _, reorder_eq_of_shift true hlen hash, ?_, ?_⟩
  · intro j hj
    exact rolled_block_getD hs hmn hb hj
  · exact np_roll_inv trig _

/-- Witness for C1 on the wrap-around mask `[1,0,0,1]` (block of length 2
starting at index 3, shift `-1`). -/
theorem aligner_shift_rotation_correct_witness :
    alignShift [1, 0, 0, 1] =
      .ok ((((([1, 0, 0, 1] : List ℤ).length : ℤ) - 2) - 3)) ∧
    ∃ tr sr si,
      reorder_circular_samples_with_trigger [1, 0, 0, 1] [1, 2, 3, 4] true =
        .ok (tr, sr, si) ∧
      (∀ j, j < ([1, 0, 0, 1] : List ℤ).length →
        (tr.getD j 0 = 1 ↔ ([1, 0, 0, 1] : List ℤ).length - 2 ≤ j)) ∧
      np_roll tr (-(((([1, 0, 0, 1] : List ℤ).length : ℤ) - 2) - 3)) = [1, 0, 0, 1] :=
  aligner_shift_rotation_correct [1, 0, 0, 1] [1, 2, 3, 4] 3 2 rfl (by decide)
    (by decide) (by decide) (by decide) (by unfold OneBlock; decide)

/-- C5: whenever the aligner succeeds, the returned `start_indicator` is a
one-hot array of the input length whose single `1` sits at index
`shift mod n` (also for negative shifts), and the element of the rotated
frame at that index is the original index-0 sample. -/
theorem aligner_start_marker (trig : List ℤ) (samp : List ℚ) (b : Bool)
    (tr : List ℤ) (sr : List ℚ) (si : List ℤ)
    (h : reorder_circular_samples_with_trigger trig samp b = .ok (tr, sr, si)) :
    ∃ sh, alignShift trig = .ok sh ∧
      si.length = trig.length ∧
      (∀ j, j < trig.length →
        (si.getD j 0 = 1 ↔ (j : ℤ) = sh % (trig.length : ℤ))) ∧
      (np_roll samp sh).getD (sh % (trig.length : ℤ)).toNat 0 = samp.getD 0 0 := by
  obtain ⟨hlen, sh, hsh, htr, hsr, hsi⟩ := reorder_ok_inv h
  obtain ⟨st, hfs, hshval, hstlt, hm1⟩ := alignShift_ok_inv hsh
  have hn : 0 < trig.length := by
    have := onesIdx_length_le trig
    omega
  have hn0 : (0 : ℤ) < (trig.length : ℤ) := by exact_mod_cast hn
  have hk : 0 ≤ sh % (trig.length : ℤ) := Int.emod_nonneg _ (by omega)
  have hklt : sh % (trig.length : ℤ) < (trig.length : ℤ) := Int.emod_lt_of_pos _ hn0
  refine ⟨sh, hsh, ?_, ?_, ?_⟩
  · rw [hsi]
    simp
  · intro j hj
    rw [hsi, List.getD_eq_getElem _ _ (by simpa using hj), List.getElem_set]
    by_cases hjk : (sh % (trig.length : ℤ)).toNat = j
    · rw [if_pos hjk, ← hjk, Int.toNat_of_nonneg hk]
      simp
    · rw [if_neg hjk]
      rw [List.getElem_replicate]
      constructor
      · intro h0
        exact absurd h0 (by norm_num)
      · intro heq
        exact absurd (by omega : (sh % (trig.length : ℤ)).toNat = j) hjk
  · have hlt : (sh % (trig.length : ℤ)).toNat < samp.length := by omega
    rw [np_roll_getD samp sh 0 _ hlt]
    have hsl : samp.length = trig.length := hlen.symm
    rw [hsl, add_emod_toNat_self sh trig.length hn]

/-- Witness for C5 on the wrap-around mask `[1,0,0,1]` (shift `-1`, marker
at index 3). -/
theorem aligner_start_marker_witness :
    ∃ sh, alignShift [1, 0, 0, 1] = .ok sh ∧
      ([0, 0, 0, 1] : List ℤ).length = ([1, 0, 0, 1] : List ℤ).length ∧
      (∀ j, j < ([1, 0, 0, 1] : List ℤ).length →
        (([0, 0, 0, 1] : List ℤ).getD j 0 = 1 ↔
          (j : ℤ) = sh % (([1, 0, 0, 1] : List ℤ).length : ℤ))) ∧
      (np_roll [1, 2, 3, 4] sh).getD
          (sh % (([1, 0, 0, 1] : List ℤ).length : ℤ)).toNat 0 =
        ([1, 2, 3, 4] : List ℚ).getD 0 0 :=
  aligner_start_marker [1, 0, 0, 1] [1, 2, 3, 4] true [0, 0, 1, 1] [2, 3, 4, 1]
    [0, 0, 0, 1] rfl

/-- C9: with `rotate_samples = false` the aligner returns the sample array
exactly as given while still returning the same rotated trigger mask and
start marker as the rotating variant (also in every error case). -/
theorem aligner_norotate_frames (trig : List ℤ) (samp : List ℚ) :
    reorder_circular_samples_with_trigger trig samp false =
      (reorder_circular_samples_with_trigger trig samp true).map
        (fun p => (p.1, samp, p.2.2)) := by
  unfold reorder_circular_samples_with_trigger
  by_cases h1 : trig.length ≠ samp.length
  · rw [if_pos h1, if_pos h1]
    rfl
  · rw [if_neg h1, if_neg h1]
    cases alignShift trig with
    | error e => rfl
    | ok sh =>
      simp only [Except.bind]
      cases pySetIdx (List.replicate trig.length 0) sh 1 with
      | error e => rfl
      | ok si => simp [Except.map]

/-- C10: on success with `rotate_samples = true` all three outputs have
the input length, the rotated mask and samples are the same cyclic
rotation of their inputs (hence permutations, preserving the number of
`1`s), and, the embedding being pure, the inputs are untouched. -/
theorem aligner_rotation_invariants (trig : List ℤ) (samp : List ℚ)
    (tr : List ℤ) (sr : List ℚ) (si : List ℤ)
    (h : reorder_circular_samples_with_trigger trig samp true = .ok (tr, sr, si)) :
    tr.length = trig.length ∧ sr.length = samp.length ∧ si.length = trig.length ∧
    (∃ sh : ℤ, alignShift trig = .ok sh ∧ tr = np_roll trig sh ∧
      sr = np_roll samp sh) ∧
    tr.Perm trig ∧ sr.Perm samp ∧ tr.count 1 = trig.count 1 := by
  obtain ⟨hlen, sh, hsh, htr, hsr, hsi⟩ := reorder_ok_inv h
  rw [if_pos rfl] at hsr
  subst htr
  subst hsr
  subst hsi
  refine ⟨np_roll_length _ _, np_roll_length _ _, by simp, ⟨sh, hsh, rfl, rfl⟩,
    ?_, ?_, ?_⟩
  · exact List.rotate_perm _ _
  · exact List.rotate_perm _ _
  · exact (List.rotate_perm _ _).count_eq 1

/-- Witness for C10 on the linear mask of the source docstring example. -/
theorem aligner_rotation_invariants_witness :
    ([0, 0, 0, 0, 1, 1] : List ℤ).length = ([0, 0, 1, 1, 0, 0] : List ℤ).length ∧
    ([4, 5, 0, 1, 2, 3] : List ℚ).length = ([0, 1, 2, 3, 4, 5] : List ℚ).length ∧
    ([0, 0, 1, 0, 0, 0] : List ℤ).length = ([0, 0, 1, 1, 0, 0] : List ℤ).length ∧
    (∃ sh : ℤ, alignShift [0, 0, 1, 1, 0, 0] = .ok sh ∧
      ([0, 0, 0, 0, 1, 1] : List ℤ) = np_roll [0, 0, 1, 1, 0, 0] sh ∧
      ([4, 5, 0, 1, 2, 3] : List ℚ) = np_roll [0, 1, 2, 3, 4, 5] sh) ∧
    ([0, 0, 0, 0, 1, 1] : List ℤ).Perm [0, 0, 1, 1, 0, 0] ∧
    ([4, 5, 0, 1, 2, 3] : List ℚ).Perm [0, 1, 2, 3, 4, 5] ∧
    ([0, 0, 0, 0, 1, 1] : List ℤ).count 1 = ([0, 0, 1, 1, 0, 0] : List ℤ).count 1 :=
  aligner_rotation_invariants [0, 0, 1, 1, 0, 0] [0, 1, 2, 3, 4, 5]
    [0, 0, 0, 0, 1, 1] [4, 5, 0, 1, 2, 3] [0, 0, 1, 0, 0, 0] rfl

theorem consecutive_getD (l : List ℕ)
    (hcons : ∀ t, t + 1 < l.length → l.getD (t + 1) 0 = l.getD t 0 + 1) :
    ∀ t, t < l.length → l.getD t 0 = l.getD 0 0 + t := by
  intro t
  induction t with
  | zero => intro _; omega
  | succ k ih =>
    intro h
    rw [hcons k (by omega), ih (by omega)]
    omega

theorem breaks_nil_inv {trig : List ℤ} (h : breaksIdx trig = []) :
    ∀ t, t + 1 < (onesIdx trig).length →
      (onesIdx trig).getD (t + 1) 0 = (onesIdx trig).getD t 0 + 1 := by
  intro t ht
  have hm := List.filter_eq_nil_iff.mp h t (by rw [List.mem_range]; omega)
  simpa using hm

theorem getD_mem_of_lt {l : List ℕ} {t : ℕ} (h : t < l.length) :
    l.getD t 0 ∈ l := by
  rw [List.getD_eq_getElem _ _ h]
  exact List.getElem_mem _

/-- A linear run accepted by the validator is one circular block. -/
theorem oneblock_of_linear {trig : List ℤ} (hne : onesIdx trig ≠ [])
    (hbr : breaksIdx trig = []) : isCircBlock trig := by
  have hm1 : 1 ≤ (onesIdx trig).length := by
    have := List.length_pos.mpr hne
    omega
  have hd := consecutive_getD (onesIdx trig) (breaks_nil_inv hbr)
  set a := (onesIdx trig).getD 0 0 with ha
  set m := (onesIdx trig).length with hm
  have han : a < trig.length := (mem_onesIdx.mp (getD_mem_of_lt (by omega))).1
  have hlastmem : (onesIdx trig).getD (m - 1) 0 ∈ onesIdx trig :=
    getD_mem_of_lt (by omega)
  have hamn : a + m ≤ trig.length := by
    have h1 := (mem_onesIdx.mp hlastmem).1
    rw [hd (m - 1) (by omega)] at h1
    omega
  have hchar : ∀ x, x ∈ onesIdx trig ↔ a ≤ x ∧ x < a + m := by
    intro x
    constructor
    · intro hx
      obtain ⟨t, ht, hval⟩ := List.mem_iff_getElem.mp hx
      have : (onesIdx trig).getD t 0 = x := by
        rw [List.getD_eq_getElem _ _ ht, hval]
      rw [hd t ht] at this
      omega
    · rintro ⟨h1, h2⟩
      have hidx : x - a < m := by omega
      have := getD_mem_of_lt (l := onesIdx trig) (t := x - a) (by omega)
      rwa [hd (x - a) (by omega), show a + (x - a) = x by omega] at this
  refine ⟨a, m, han, hm1, onesIdx_length_le trig, ?_⟩
  intro i hi
  have hmem : trig.getD i 0 = 1 ↔ i ∈ onesIdx trig := by
    rw [mem_onesIdx]
    exact ⟨fun h => ⟨hi, h⟩, fun h => h.2⟩
  rw [hmem, hchar i, oneblock_interval han hi]
  omega

/-- A wrap-around run accepted by the validator is one circular block. -/
theorem oneblock_of_wrap {trig : List ℤ} (hne : onesIdx trig ≠ [])
    (hlen1 : (breaksIdx trig).length = 1) (hhd : (onesIdx trig).headD 0 = 0)
    (hlast : (onesIdx trig).getLastD 0 = trig.length - 1) : isCircBlock trig := by
  obtain ⟨b0, hb0⟩ := List.length_eq_one.mp hlen1
  have hm1 : 1 ≤ (onesIdx trig).length := by
    have := List.length_pos.mpr hne
    omega
  set m := (onesIdx trig).length with hm
  have hb0mem : b0 ∈ breaksIdx trig := by rw [hb0]; exact List.mem_singleton.mpr rfl
  have hb0lt : b0 < m - 1 := by
    have := List.mem_filter.mp hb0mem
    simpa [List.mem_range] using this.1
  have hb0cond : ¬ (onesIdx trig).getD (b0 + 1) 0 = (onesIdx trig).getD b0 0 + 1 := by
    have := List.mem_filter.mp hb0mem
    simpa using this.2
  have hcons : ∀ t, t + 1 < m → t ≠ b0 →
      (onesIdx trig).getD (t + 1) 0 = (onesIdx trig).getD t 0 + 1 := by
    intro t ht htne
    by_contra hne2
    have hmem : t ∈ breaksIdx trig := by
      refine List.mem_filter.mpr ⟨by rw [List.mem_range]; omega, by simpa using hne2⟩
    rw [hb0] at hmem
    exact htne (List.mem_singleton.mp hmem)
  have hlow : ∀ t, t ≤ b0 → (onesIdx trig).getD t 0 = t := by
    intro t
    induction t with
    | zero =>
      intro _
      rw [← headD_eq_getD, hhd]
    | succ k ih =>
      intro h
      rw [hcons k (by omega) (by omega), ih (by omega)]
  set s := (onesIdx trig).getD (b0 + 1) 0 with hsdef
  have hhigh : ∀ t, b0 + 1 ≤ t → t < m →
      (onesIdx trig).getD t 0 = s + (t - (b0 + 1)) := by
    intro t
    induction t with
    | zero => omega
    | succ k ih =>
      intro h1 h2
      rcases Nat.lt_or_ge b0 k with hk | hk
      · rw [hcons k (by omega) (by omega), ih (by omega) (by omega)]
        omega
      · have : k = b0 := by omega
        subst this
        omega
  have hlastD : (onesIdx trig).getD (m - 1) 0 = trig.length - 1 := by
    rw [← getLastD_eq_getD]
    exact hlast
  have hsn : s + (m - 1 - (b0 + 1)) = trig.length - 1 := by
    rw [← hhigh (m - 1) (by omega) (by omega)]
    exact hlastD
  have hsmem : s ∈ onesIdx trig := getD_mem_of_lt (by omega)
  have hslt : s < trig.length := (mem_onesIdx.mp hsmem).1
  have hgap : b0 + 1 < s := by
    have hsort := onesIdx_sorted trig
    rw [List.Sorted, List.pairwise_iff_getElem] at hsort
    have h1 := hsort b0 (b0 + 1) (by omega) (by omega) (by omega)
    rw [← List.getD_eq_getElem _ 0 (show b0 < m by omega),
      ← List.getD_eq_getElem _ 0 (show b0 + 1 < m by omega)] at h1
    rw [hlow b0 (by omega)] at h1
    rw [hlow b0 (by omega)] at hb0cond
    omega
  have hchar : ∀ x, x ∈ onesIdx trig ↔ x ≤ b0 ∨ (s ≤ x ∧ x < trig.length) := by
    intro x
    constructor
    · intro hx
      obtain ⟨t, ht, hval⟩ := List.mem_iff_getElem.mp hx
      have hvd : (onesIdx trig).getD t 0 = x := by
        rw [List.getD_eq_getElem _ _ ht, hval]
      rcases le_or_lt t b0 with h1 | h1
      · rw [hlow t h1] at hvd
        omega
      · rw [hhigh t (by omega) ht] at hvd
        omega
    · intro hx
      rcases hx with h1 | ⟨h1, h2⟩
      · have := getD_mem_of_lt (l := onesIdx trig) (t := x) (by omega)
        rwa [hlow x h1] at this
      · have hidx : b0 + 1 + (x - s) < m := by omega
        have := getD_mem_of_lt (l := onesIdx trig) (t := b0 + 1 + (x - s)) hidx
        rwa [hhigh _ (by omega) hidx, show s + (b0 + 1 + (x - s) - (b0 + 1)) = x
          by omega] at this
  refine ⟨s, m, hslt, hm1, onesIdx_length_le trig, ?_⟩
  intro i hi
  have hmem : trig.getD i 0 = 1 ↔ i ∈ onesIdx trig := by
    rw [mem_onesIdx]
    exact ⟨fun h => ⟨hi, h⟩, fun h => h.2⟩
  rw [hmem, hchar i, oneblock_interval hslt hi]
  omega

/-- C6: with equal-length inputs the aligner succeeds exactly on masks
whose `1`s are non-empty and form one contiguous block under circular
adjacency (a single wrap gap with both endpoints set is the accepted wrap
case); it fails on the empty mask and on any other gapped pattern such as
`[1,0,1,0]`, and never fails on a valid mask. -/
theorem aligner_error_iff (trig : List ℤ) (samp : List ℚ) (b : Bool)
    (hlen : trig.length = samp.length) :
    (∃ out, reorder_circular_samples_with_trigger trig samp b = .ok out) ↔
      isCircBlock trig := by
  constructor
  · rintro ⟨⟨tr, sr, si⟩, h⟩
    obtain ⟨_, sh, hsh, _⟩ := reorder_ok_inv h
    obtain ⟨st, hfs, _⟩ := alignShift_ok_inv hsh
    unfold findStart at hfs
    by_cases h1 : (onesIdx trig).isEmpty
    · rw [if_pos h1] at hfs
      cases hfs
    · rw [if_neg h1] at hfs
      have hne : onesIdx trig ≠ [] := by simpa [List.isEmpty_iff] using h1
      by_cases h2 : (breaksIdx trig).length = 0
      · exact oneblock_of_linear hne (List.length_eq_zero.mp h2)
      · rw [if_neg h2] at hfs
        by_cases h3 : (breaksIdx trig).length = 1 ∧ (onesIdx trig).headD 0 = 0 ∧
            (onesIdx trig).getLastD 0 = trig.length - 1
        · exact oneblock_of_wrap hne h3.1 h3.2.1 h3.2.2
        · rw [if_neg h3] at hfs
          cases hfs
  · rintro ⟨s, m, hs, hm1, hmn, hb⟩
    have hcanon : ∃ s', s' < trig.length ∧ (m = trig.length → s' = 0) ∧
        OneBlock trig s' m := by
      by_cases hdeg : m = trig.length
      · refine ⟨0, by omega, fun _ => rfl, ?_⟩
        intro i hi
        rw [hb i hi]
        subst hdeg
        constructor
        · intro _
          exact Nat.mod_lt _ (by omega)
        · intro _
          exact Nat.mod_lt _ (by omega)
      · exact ⟨s, hs, fun h => absurd h hdeg, hb⟩
    obtain ⟨s', hs', hdeg', hb'⟩ := hcanon
    obtain ⟨hfs, hml⟩ := findStart_of_oneblock hs' hm1 hmn hdeg' hb'
    have hash : alignShift trig = .ok (((trig.length : ℤ) - m) - s') := by
      unfold alignShift
      rw [hfs]
      simp [Except.map, hml]
    exact ⟨_, reorder_eq_of_shift b hlen hash⟩

/-- Witness for C6: the malformed mask `[1,0,1,0]` of the spec scenario
and the valid mask of the source docstring example. -/
theorem aligner_error_iff_witness :
    ((∃ out, reorder_circular_samples_with_trigger [1, 0, 1, 0] [1, 2, 3, 4] true =
        .ok out) ↔ isCircBlock [1, 0, 1, 0]) ∧
    ((∃ out, reorder_circular_samples_with_trigger [0, 0, 1, 1, 0, 0]
        [0, 1, 2, 3, 4, 5] true = .ok out) ↔ isCircBlock [0, 0, 1, 1, 0, 0]) :=
  ⟨aligner_error_iff [1, 0, 1, 0] [1, 2, 3, 4] true rfl,
   aligner_error_iff [0, 0, 1, 1, 0, 0] [0, 1, 2, 3, 4, 5] true rfl⟩

/-- Witness for C8 at a concrete input with an active channel filter. -/
theorem select_waveforms_counter_spec_witness :
    select_waveforms [[⟨1, 2, 0, 0, [], []⟩]] 0 1 (some [2]) =
      selectSpec [⟨1, 2, 0, 0, [], []⟩] 0 1 (some [2]) ∧
    ∀ w ∈ select_waveforms [[⟨1, 2, 0, 0, [], []⟩]] 0 1 (some [2]), w.2.1 ∈ [(2 : ℤ)] :=
  ⟨by
    have h := (select_waveforms_counter_spec [[⟨1, 2, 0, 0, [], []⟩]] 0 1 (some [2])).1
    simpa using h,
   (select_waveforms_counter_spec [[⟨1, 2, 0, 0, [], []⟩]] 0 1 (some [2])).2 [2] rfl⟩


/-! ## Lemmas: InterpolationEngine -/

theorem headD_getD {α : Type} (d : α) (l : List α) : l.headD d = l.getD 0 d := by
  cases l <;> rfl

theorem getLastD_getD {α : Type} (d : α) (l : List α) :
    l.getLastD d = l.getD (l.length - 1) d := by
  induction l generalizing d with
  | nil => rfl
  | cons a t ih =>
    cases t with
    | nil => rfl
    | cons b u =>
      rw [List.getLastD_cons, ih a]
      rw [List.getD_eq_getElem _ _ (by simp), List.getD_eq_getElem _ _ (by simp)]
      simp

theorem getD_mem {α : Type} (d : α) {l : List α} {t : ℕ} (h : t < l.length) :
    l.getD t d ∈ l := by
  rw [List.getD_eq_getElem _ _ h]
  exact List.getElem_mem _

theorem headD_mem {α : Type} (d : α) {l : List α} (h : l ≠ []) : l.headD d ∈ l := by
  rw [headD_getD]
  exact getD_mem d (by cases l with | nil => exact absurd rfl h | cons a t => simp)

theorem getLastD_mem {α : Type} (d : α) {l : List α} (h : l ≠ []) :
    l.getLastD d ∈ l := by
  rw [getLastD_getD]
  exact getD_mem d (by cases l with | nil => exact absurd rfl h | cons a t => simp)

theorem foldl_min_le_init (xs : List ℝ) : ∀ a : ℝ, xs.foldl min a ≤ a := by
  induction xs with
  | nil => intro a; simp
  | cons b bs ih =>
    intro a
    calc bs.foldl min (min a b) ≤ min a b := ih (min a b)
    _ ≤ a := min_le_left _ _

theorem foldl_min_le_mem (xs : List ℝ) :
    ∀ a x : ℝ, x ∈ xs → xs.foldl min a ≤ x := by
  induction xs with
  | nil => intro a x hx; cases hx
  | cons b bs ih =>
    intro a x hx
    rcases List.mem_cons.mp hx with h | h
    · subst h
      calc bs.foldl min (min a x) ≤ min a x := foldl_min_le_init bs _
      _ ≤ x := min_le_right _ _
    · exact ih (min a b) x h

theorem listMin_le {l : List ℝ} {x : ℝ} (h : x ∈ l) : listMin l ≤ x := by
  cases l with
  | nil => cases h
  | cons a xs =>
    rcases List.mem_cons.mp h with h1 | h1
    · subst h1
      exact foldl_min_le_init xs x
    · exact foldl_min_le_mem xs a x h1

theorem foldl_max_init_le (xs : List ℝ) : ∀ a : ℝ, a ≤ xs.foldl max a := by
  induction xs with
  | nil => intro a; simp
  | cons b bs ih =>
    intro a
    calc a ≤ max a b := le_max_left _ _
    _ ≤ bs.foldl max (max a b) := ih (max a b)

theorem foldl_max_mem_le (xs : List ℝ) :
    ∀ a x : ℝ, x ∈ xs → x ≤ xs.foldl max a := by
  induction xs with
  | nil => intro a x hx; cases hx
  | cons b bs ih =>
    intro a x hx
    rcases List.mem_cons.mp hx with h | h
    · subst h
      calc x ≤ max a x := le_max_right _ _
      _ ≤ bs.foldl max (max a x) := foldl_max_init_le bs _
    · exact ih (max a b) x h

theorem le_listMax {l : List ℝ} {x : ℝ} (h : x ∈ l) : x ≤ listMax l := by
  cases l with
  | nil => cases h
  | cons a xs =>
    rcases List.mem_cons.mp h with h1 | h1
    · subst h1
      exact foldl_max_init_le xs x
    · exact foldl_max_mem_le xs a x h1

theorem foldl_min_mem (xs : List ℝ) :
    ∀ a : ℝ, xs.foldl min a = a ∨ xs.foldl min a ∈ xs := by
  induction xs with
  | nil => intro a; left; rfl
  | cons b bs ih =>
    intro a
    rw [List.foldl_cons]
    rcases ih (min a b) with h | h
    · rcases min_choice a b with h2 | h2
      · left; rw [h]; exact h2
      · right; rw [List.mem_cons]; left; rw [h]; exact h2
    · right
      exact List.mem_cons.mpr (Or.inr h)

theorem listMin_mem {l : List ℝ} (h : l ≠ []) : listMin l ∈ l := by
  cases l with
  | nil => exact absurd rfl h
  | cons a xs =>
    rcases foldl_min_mem xs a with h1 | h1
    · rw [List.mem_cons]; left; exact h1
    · exact List.mem_cons.mpr (Or.inr h1)

theorem foldl_max_mem (xs : List ℝ) :
    ∀ a : ℝ, xs.foldl max a = a ∨ xs.foldl max a ∈ xs := by
  induction xs with
  | nil => intro a; left; rfl
  | cons b bs ih =>
    intro a
    rw [List.foldl_cons]
    rcases ih (max a b) with h | h
    · rcases max_choice a b with h2 | h2
      · left; rw [h]; exact h2
      · right; rw [List.mem_cons]; left; rw [h]; exact h2
    · right
      exact List.mem_cons.mpr (Or.inr h)

theorem listMax_mem {l : List ℝ} (h : l ≠ []) : listMax l ∈ l := by
  cases l with
  | nil => exact absurd rfl h
  | cons a xs =>
    rcases foldl_max_mem xs a with h1 | h1
    · rw [List.mem_cons]; left; exact h1
    · exact List.mem_cons.mpr (Or.inr h1)

theorem uniformGrid_length (t0 T : ℝ) (N : ℕ) : (uniformGrid t0 T N).length = N := by
  unfold uniformGrid
  rw [List.length_map, List.length_range]

theorem uniformGrid_getD {t0 T : ℝ} {N i : ℕ} (h : i < N) :
    (uniformGrid t0 T N).getD i 0 = t0 + i * T := by
  unfold uniformGrid
  rw [List.getD_eq_getElem _ _ (by rw [List.length_map, List.length_range]; exact h)]
  rw [List.getElem_map, List.getElem_range]

theorem uniformGrid_ne_nil {t0 T : ℝ} {N : ℕ} (h : 1 ≤ N) :
    uniformGrid t0 T N ≠ [] := by
  intro hc
  have := congrArg List.length hc
  rw [uniformGrid_length] at this
  simp at this
  omega

theorem uniformGrid_mem_bounds {t0 T : ℝ} {N : ℕ} (hT : 0 < T) :
    ∀ x ∈ uniformGrid t0 T N, t0 ≤ x ∧ x ≤ t0 + ((N : ℝ) - 1) * T := by
  intro x hx
  unfold uniformGrid at hx
  obtain ⟨i, hi, rfl⟩ := List.mem_map.mp hx
  rw [List.mem_range] at hi
  have h1 : (0 : ℝ) ≤ (i : ℝ) := by positivity
  have h2 : (i : ℝ) ≤ (N : ℝ) - 1 := by
    have : (i : ℝ) + 1 ≤ (N : ℝ) := by exact_mod_cast hi
    linarith
  constructor
  · nlinarith
  · nlinarith

theorem listMin_uniformGrid {t0 T : ℝ} {N : ℕ} (hT : 0 < T) (hN : 1 ≤ N) :
    listMin (uniformGrid t0 T N) = t0 := by
  have h1 : t0 ∈ uniformGrid t0 T N := by
    have := getD_mem (0 : ℝ) (l := uniformGrid t0 T N) (t := 0)
      (by rw [uniformGrid_length]; omega)
    rwa [uniformGrid_getD (by omega), Nat.cast_zero, zero_mul, add_zero] at this
  refine le_antisymm (listMin_le h1) ?_
  have h2 := listMin_mem (l := uniformGrid t0 T N) (uniformGrid_ne_nil hN)
  exact (uniformGrid_mem_bounds hT _ h2).1

theorem listMax_uniformGrid {t0 T : ℝ} {N : ℕ} (hT : 0 < T) (hN : 1 ≤ N) :
    listMax (uniformGrid t0 T N) = t0 + ((N : ℝ) - 1) * T := by
  have h1 : t0 + ((N : ℝ) - 1) * T ∈ uniformGrid t0 T N := by
    have := getD_mem (0 : ℝ) (l := uniformGrid t0 T N) (t := N - 1)
      (by rw [uniformGrid_length]; omega)
    rw [uniformGrid_getD (by omega)] at this
    rwa [show ((N - 1 : ℕ) : ℝ) = (N : ℝ) - 1 by
      rw [Nat.cast_sub hN]; norm_num] at this
  refine le_antisymm ?_ (le_listMax h1)
  have h2 := listMax_mem (l := uniformGrid t0 T N) (uniformGrid_ne_nil hN)
  exact (uniformGrid_mem_bounds hT _ h2).2

theorem uniformGrid_getElem {t0 T : ℝ} {N i : ℕ}
    (h : i < (uniformGrid t0 T N).length) :
    (uniformGrid t0 T N)[i] = t0 + (i : ℝ) * T := by
  unfold uniformGrid at h ⊢
  rw [List.getElem_map, List.getElem_range]

theorem npDiff_uniformGrid (t0 T : ℝ) (N : ℕ) :
    npDiff (uniformGrid t0 T N) = List.replicate (N - 1) T := by
  apply List.ext_getElem
  · unfold npDiff
    rw [List.length_zipWith, List.length_tail, uniformGrid_length,
      List.length_replicate]
    omega
  · intro i h1 h2
    rw [List.getElem_replicate]
    unfold npDiff
    rw [List.getElem_zipWith, List.getElem_tail]
    rw [uniformGrid_getElem, uniformGrid_getElem]
    push_cast
    ring

theorem allcloseDiff_uniformGrid {t0 T atol : ℝ} {N : ℕ} (h : 0 ≤ atol) :
    allcloseDiff (uniformGrid t0 T N) T atol := by
  intro d hd
  rw [npDiff_uniformGrid] at hd
  have hdT : d = T := List.eq_of_mem_replicate hd
  subst hdT
  simp only [sub_self, abs_zero]
  positivity

theorem uniformGrid_T {t0 T : ℝ} {N : ℕ} (h : 2 ≤ N) :
    (uniformGrid t0 T N).getD 1 0 - (uniformGrid t0 T N).getD 0 0 = T := by
  rw [uniformGrid_getD (by omega), uniformGrid_getD (by omega)]
  push_cast
  ring


theorem sinc_zero : sinc 0 = 1 := by
  unfold sinc
  rw [if_pos rfl]

theorem sinc_intCast {z : ℤ} (hz : z ≠ 0) : sinc (z : ℝ) = 0 := by
  unfold sinc
  rw [if_neg (by exact_mod_cast hz)]
  rw [mul_comm, Real.sin_int_mul_pi]
  simp

theorem npRound_intCast (z : ℤ) : npRound (z : ℝ) = z := by
  unfold npRound
  rw [Int.floor_intCast, if_neg (by norm_num)]
  exact round_intCast z

theorem wWin_zero {win : String} (M : ℤ) (h : win = "hann" ∨ win = "hamming") :
    wWin win M 0 = 1 := by
  unfold wWin
  rcases h with h | h <;> subst h
  · rw [if_pos rfl]
    norm_num
  · rw [if_neg (by decide)]
    norm_num

theorem wNorm_zero {win : String} (M : ℤ) (h : win = "hann" ∨ win = "hamming") :
    wNorm win M 0 = 1 := by
  unfold wNorm
  rw [wWin_zero M h]
  norm_num

theorem lanKernel_zero (a : ℤ) : lanKernel a 0 = 1 := by
  unfold lanKernel
  rw [zero_div, sinc_zero]
  norm_num

theorem lanKernel_intCast {a z : ℤ} (hz : z ≠ 0) : lanKernel a (z : ℝ) = 0 := by
  unfold lanKernel
  rw [sinc_intCast hz, zero_mul]

/-- At an exact sample time the windowed-sinc output sample is the input
sample: the kernel is centered on index `j`, every other tap meets the
sinc at a non-zero integer and vanishes, and the center tap has unit
window weight. -/
theorem wsAt_at_sample (t0 T : ℝ) (N : ℕ) (y : List ℝ) (win : String) (M : ℤ)
    (hT : T ≠ 0) (hy : y.length = N) (j : ℕ) (hj : j < N)
    (hwin : win = "hann" ∨ win = "hamming") (hM : 0 ≤ M) :
    wsAt (uniformGrid t0 T N) y T win M (t0 + (j : ℝ) * T) = y.getD j 0 := by
  simp only [wsAt]
  have hhead : (uniformGrid t0 T N).headD 0 = t0 := by
    rw [headD_getD, uniformGrid_getD (by omega)]
    push_cast
    ring
  rw [hhead]
  have harg : (t0 + (j : ℝ) * T - t0) / T = ((j : ℤ) : ℝ) := by
    push_cast
    field_simp
  rw [harg, npRound_intCast]
  rw [uniformGrid_length]
  rw [Finset.sum_eq_single_of_mem 0 (by rw [Finset.mem_Icc]; omega)]
  · have hcond : 0 ≤ (j : ℤ) + 0 ∧ (j : ℤ) + 0 < (N : ℤ) := by
      constructor <;> omega
    rw [if_pos hcond]
    have htonat : ((j : ℤ) + 0).toNat = j := by omega
    rw [htonat, uniformGrid_getD hj]
    rw [show t0 + (j : ℝ) * T - (t0 + (j : ℝ) * T) = 0 by ring, zero_div, sinc_zero,
      wNorm_zero M hwin]
    ring
  · intro k hk hk0
    by_cases hcond : 0 ≤ (j : ℤ) + k ∧ (j : ℤ) + k < (N : ℤ)
    · rw [if_pos hcond]
      have hlt : ((j : ℤ) + k).toNat < N := by omega
      rw [uniformGrid_getD hlt]
      have hcast : ((((j : ℤ) + k).toNat : ℕ) : ℝ) = (j : ℝ) + (k : ℝ) := by
        have h1 : ((((j : ℤ) + k).toNat : ℕ) : ℤ) = (j : ℤ) + k :=
          Int.toNat_of_nonneg hcond.1
        exact_mod_cast congrArg (fun z : ℤ => (z : ℝ)) h1
      rw [hcast]
      have hargk : (t0 + (j : ℝ) * T - (t0 + ((j : ℝ) + (k : ℝ)) * T)) / T =
          ((-k : ℤ) : ℝ) := by
        push_cast
        field_simp
        ring
      rw [hargk, sinc_intCast (by omega)]
      ring
    · rw [if_neg hcond]

/-- At an exact sample time the Lanczos output sample is the input sample:
only the center tap survives, so both the renormalization sum and the dot
product reduce to the center values. -/
theorem lanAt_at_sample (t0 T : ℝ) (N : ℕ) (y : List ℝ) (a : ℤ)
    (hT : T ≠ 0) (hy : y.length = N) (ha : 1 ≤ a) (j : ℕ) (hj : j < N) :
    lanAt (uniformGrid t0 T N) y T a (t0 + (j : ℝ) * T) = y.getD j 0 := by
  simp only [lanAt]
  have hhead : (uniformGrid t0 T N).headD 0 = t0 := by
    rw [headD_getD, uniformGrid_getD (by omega)]
    push_cast
    ring
  rw [hhead]
  have harg : (t0 + (j : ℝ) * T - t0) / T = ((j : ℤ) : ℝ) := by
    push_cast
    field_simp
  rw [harg, Int.floor_intCast, uniformGrid_length]
  have hterm : ∀ k : ℤ, k ∈ Finset.Icc ((j : ℤ) - a + 1) ((j : ℤ) + a) →
      k ≠ (j : ℤ) →
      (if 0 ≤ k ∧ k < (N : ℤ) then
        lanKernel a ((t0 + (j : ℝ) * T - (uniformGrid t0 T N).getD k.toNat 0) / T)
      else 0) = 0 := by
    intro k hk hk0
    by_cases hcond : 0 ≤ k ∧ k < (N : ℤ)
    · rw [if_pos hcond]
      have hlt : k.toNat < N := by omega
      rw [uniformGrid_getD hlt]
      have hcast : ((k.toNat : ℕ) : ℝ) = (k : ℝ) := by
        have h1 : ((k.toNat : ℕ) : ℤ) = k := Int.toNat_of_nonneg hcond.1
        exact_mod_cast congrArg (fun z : ℤ => (z : ℝ)) h1
      rw [hcast]
      have hargk : (t0 + (j : ℝ) * T - (t0 + (k : ℝ) * T)) / T =
          (((j : ℤ) - k : ℤ) : ℝ) := by
        push_cast
        field_simp
        ring
      rw [hargk, lanKernel_intCast (by omega)]
    · rw [if_neg hcond]
  have hjmem : (j : ℤ) ∈ Finset.Icc ((j : ℤ) - a + 1) ((j : ℤ) + a) := by
    rw [Finset.mem_Icc]
    omega
  have hjcond : 0 ≤ (j : ℤ) ∧ (j : ℤ) < (N : ℤ) := by constructor <;> omega
  have hcenter : (t0 + (j : ℝ) * T - (uniformGrid t0 T N).getD ((j : ℤ)).toNat 0)
      / T = 0 := by
    have htonat : ((j : ℤ)).toNat = j := by omega
    rw [htonat, uniformGrid_getD hj]
    rw [show t0 + (j : ℝ) * T - (t0 + (j : ℝ) * T) = 0 by ring, zero_div]
  rw [Finset.sum_eq_single_of_mem ((j : ℤ)) hjmem
      (by
        intro k hk hk0
        by_cases hcond : 0 ≤ k ∧ k < (N : ℤ)
        · rw [if_pos hcond]
          have h0 := hterm k hk hk0
          rw [if_pos hcond] at h0
          rw [h0, mul_zero]
        · rw [if_neg hcond]),
    Finset.sum_eq_single_of_mem ((j : ℤ)) hjmem hterm]
  rw [if_pos hjcond, if_pos hjcond, hcenter, lanKernel_zero]
  have htonat : ((j : ℤ)).toNat = j := by omega
  rw [htonat]
  simp


/-- On a uniform grid with in-range targets, all validations of
`windowed_sinc_interpolation` pass and it returns the mapped kernel sums. -/
theorem windowed_sinc_uniform_ok (t0 T : ℝ) (N : ℕ) (y t_new : List ℝ)
    (win : String) (M : ℤ) (hT : 0 < T) (hN : 2 ≤ N)
    (hwin : win = "hann" ∨ win = "hamming") (hM : 0 ≤ M)
    (hrange : ∀ t ∈ t_new, t0 ≤ t ∧ t ≤ t0 + ((N : ℝ) - 1) * T) :
    windowed_sinc_interpolation (uniformGrid t0 T N) y t_new win M =
      .ok (t_new.map (wsAt (uniformGrid t0 T N) y T win M)) := by
  unfold windowed_sinc_interpolation
  rw [if_neg (by rw [uniformGrid_length]; omega)]
  rw [if_neg ?hr]
  case hr =>
    intro hcon
    rcases hcon with ⟨t, ht, hlt⟩ | ⟨t, ht, hlt⟩
    · rw [listMin_uniformGrid hT (by omega)] at hlt
      have := (hrange t ht).1
      linarith
    · rw [listMax_uniformGrid hT (by omega)] at hlt
      have := (hrange t ht).2
      linarith
  rw [if_neg (not_not_intro hwin)]
  rw [uniformGrid_T hN]
  rw [if_neg (not_not_intro (allcloseDiff_uniformGrid (by positivity)))]
  rw [if_neg (by omega)]

/-- On a uniform grid with in-range targets, all validations of
`lanczos_interpolation` pass and it returns the mapped kernel sums. -/
theorem lanczos_uniform_ok (t0 T : ℝ) (N : ℕ) (y t_new : List ℝ) (a : ℤ)
    (hT : 0 < T) (hN : 2 ≤ N) (hy : y.length = N) (ha : 1 ≤ a)
    (hrange : ∀ t ∈ t_new, t0 ≤ t ∧ t ≤ t0 + ((N : ℝ) - 1) * T) :
    lanczos_interpolation (uniformGrid t0 T N) y t_new a =
      .ok (t_new.map (lanAt (uniformGrid t0 T N) y T a)) := by
  unfold lanczos_interpolation
  rw [if_neg (by rw [uniformGrid_length, hy]; omega)]
  rw [if_neg (by omega)]
  rw [if_neg ?hr]
  case hr =>
    intro hcon
    rcases hcon with ⟨t, ht, hlt⟩ | ⟨t, ht, hlt⟩
    · rw [listMin_uniformGrid hT (by omega)] at hlt
      have := (hrange t ht).1
      linarith
    · rw [listMax_uniformGrid hT (by omega)] at hlt
      have := (hrange t ht).2
      linarith
  rw [uniformGrid_T hN]
  rw [if_neg (not_not_intro (allcloseDiff_uniformGrid (by positivity)))]

/-- C2: for the hann / hamming windowed-sinc kernels and the Lanczos
kernel, a requested output time equal to an original sample time
reproduces that sample value exactly (hence within any tolerance) in the
real-number model, for every uniformly spaced input of length at least 2;
the dispatcher's offset round-trip (interpolating `y - o` and adding `o`
back) is included. -/
theorem interp_reconstruction_identity (t0 T : ℝ) (N : ℕ) (y t_new : List ℝ)
    (o : ℝ) (M a : ℤ) (j i : ℕ)
    (hT : 0 < T) (hN : 2 ≤ N) (hy : y.length = N)
    (hrange : ∀ t ∈ t_new, t0 ≤ t ∧ t ≤ t0 + ((N : ℝ) - 1) * T)
    (hj : j < N) (hi : i < t_new.length)
    (hti : t_new.getD i 0 = t0 + (j : ℝ) * T)
    (hM : 0 ≤ M) (ha : 1 ≤ a) :
    (∀ win, win = "hann" ∨ win = "hamming" →
      ∃ out, windowed_sinc_interpolation (uniformGrid t0 T N)
          (y.map (fun v => v - o)) t_new win M = .ok out ∧
        out.getD i 0 + o = y.getD j 0) ∧
    (∃ out, lanczos_interpolation (uniformGrid t0 T N)
        (y.map (fun v => v - o)) t_new a = .ok out ∧
      out.getD i 0 + o = y.getD j 0) := by
  have hylen : (y.map (fun v => v - o)).length = N := by
    rw [List.length_map, hy]
  have hymap : (y.map (fun v => v - o)).getD j 0 = y.getD j 0 - o := by
    rw [List.getD_eq_getElem _ _ (by rw [List.length_map, hy]; exact hj),
      List.getD_eq_getElem _ _ (by rw [hy]; exact hj), List.getElem_map]
  constructor
  · intro win hwin
    refine ⟨_, windowed_sinc_uniform_ok t0 T N _ t_new win M hT hN hwin hM hrange, ?_⟩
    rw [List.getD_eq_getElem _ _ (by rw [List.length_map]; exact hi),
      List.getElem_map, ← List.getD_eq_getElem t_new 0 hi, hti]
    rw [wsAt_at_sample t0 T N _ win M (by positivity) hylen j hj hwin hM, hymap]
    ring
  · refine ⟨_, lanczos_uniform_ok t0 T N _ t_new a hT hN hylen ha hrange, ?_⟩
    rw [List.getD_eq_getElem _ _ (by rw [List.length_map]; exact hi),
      List.getElem_map, ← List.getD_eq_getElem t_new 0 hi, hti]
    rw [lanAt_at_sample t0 T N _ a (by positivity) hylen ha j hj, hymap]
    ring

/-- Witness for C2: grid `0, 1`, samples `1, 2`, target time `0`, offset
`5`, hann and hamming windows of half-width 1 and Lanczos order 1. -/
theorem interp_reconstruction_identity_witness :
    (∀ win, win = "hann" ∨ win = "hamming" →
      ∃ out, windowed_sinc_interpolation (uniformGrid 0 1 2)
          (([1, 2] : List ℝ).map (fun v => v - 5)) [0] win 1 = .ok out ∧
        out.getD 0 0 + 5 = ([1, 2] : List ℝ).getD 0 0) ∧
    (∃ out, lanczos_interpolation (uniformGrid 0 1 2)
        (([1, 2] : List ℝ).map (fun v => v - 5)) [0] 1 = .ok out ∧
      out.getD 0 0 + 5 = ([1, 2] : List ℝ).getD 0 0) := by
  have h := interp_reconstruction_identity 0 1 2 [1, 2] [0] 5 1 1 0 0
    (by norm_num) (by norm_num) (by norm_num)
    (by
      intro t ht
      rw [List.mem_singleton] at ht
      subst ht
      norm_num)
    (by norm_num) (by norm_num)
    (by norm_num) (by norm_num) (by norm_num)
  simpa using h


theorem linspace_length (a b : ℝ) (num : ℕ) : (linspace a b num).length = num := by
  unfold linspace
  rw [List.length_map, List.length_range]

theorem linspace_getD {a b : ℝ} {num i : ℕ} (h : i < num) :
    (linspace a b num).getD i 0 = a + (i : ℝ) * ((b - a) / ((num : ℝ) - 1)) := by
  unfold linspace
  rw [List.getD_eq_getElem _ _ (by rw [List.length_map, List.length_range]; exact h)]
  rw [List.getElem_map, List.getElem_range]

theorem linspace_mem_bounds {a b : ℝ} {num : ℕ} :
    ∀ t ∈ linspace a b num, min a b ≤ t ∧ t ≤ max a b := by
  intro t ht
  unfold linspace at ht
  obtain ⟨i, hi, rfl⟩ := List.mem_map.mp ht
  rw [List.mem_range] at hi
  rcases Nat.lt_or_ge num 2 with hn | hn
  · have hi0 : i = 0 := by omega
    subst hi0
    rw [Nat.cast_zero, zero_mul, add_zero]
    exact ⟨min_le_left _ _, le_max_left _ _⟩
  · have hn1 : (0 : ℝ) < (num : ℝ) - 1 := by
      have : (2 : ℝ) ≤ (num : ℝ) := by exact_mod_cast hn
      linarith
    have hile : (i : ℝ) ≤ (num : ℝ) - 1 := by
      have : (i : ℝ) + 1 ≤ (num : ℝ) := by exact_mod_cast hi
      linarith
    have hinn : (0 : ℝ) ≤ (i : ℝ) := by positivity
    rcases le_total a b with hab | hab
    · rw [min_eq_left hab, max_eq_right hab]
      constructor
      · have : 0 ≤ (i : ℝ) * ((b - a) / ((num : ℝ) - 1)) := by
          apply mul_nonneg hinn
          apply div_nonneg (by linarith) (by linarith)
        linarith
      · have h2 : (i : ℝ) * ((b - a) / ((num : ℝ) - 1)) ≤
            ((num : ℝ) - 1) * ((b - a) / ((num : ℝ) - 1)) := by
          apply mul_le_mul_of_nonneg_right hile
          apply div_nonneg (by linarith) (by linarith)
        have h3 : ((num : ℝ) - 1) * ((b - a) / ((num : ℝ) - 1)) = b - a := by
          field_simp
        linarith
    · rw [min_eq_right hab, max_eq_left hab]
      have hc : (b - a) / ((num : ℝ) - 1) ≤ 0 := by
        apply div_nonpos_of_nonpos_of_nonneg (by linarith) (by linarith)
      constructor
      · have h2 : ((num : ℝ) - 1) * ((b - a) / ((num : ℝ) - 1)) ≤
            (i : ℝ) * ((b - a) / ((num : ℝ) - 1)) :=
          mul_le_mul_of_nonpos_right hile hc
        have h3 : ((num : ℝ) - 1) * ((b - a) / ((num : ℝ) - 1)) = b - a := by
          field_simp
        linarith
      · have : (i : ℝ) * ((b - a) / ((num : ℝ) - 1)) ≤ 0 :=
          mul_nonpos_of_nonneg_of_nonpos hinn hc
        linarith

/-- The nominal fine grid never leaves the range of the original samples,
so the range validation of the kernel interpolators cannot fire when they
are called from the dispatcher. -/
theorem linspace_in_range (x : List ℝ) (num : ℕ) (hx : x ≠ []) :
    ¬ ((∃ t ∈ linspace (x.headD 0) (x.getLastD 0) num, t < listMin x) ∨
      (∃ t ∈ linspace (x.headD 0) (x.getLastD 0) num, listMax x < t)) := by
  have hh : listMin x ≤ x.headD 0 := listMin_le (headD_mem 0 hx)
  have hl : listMin x ≤ x.getLastD 0 := listMin_le (getLastD_mem 0 hx)
  have hh2 : x.headD 0 ≤ listMax x := le_listMax (headD_mem 0 hx)
  have hl2 : x.getLastD 0 ≤ listMax x := le_listMax (getLastD_mem 0 hx)
  intro hcon
  rcases hcon with ⟨t, ht, hlt⟩ | ⟨t, ht, hlt⟩
  · have h1 := (linspace_mem_bounds t ht).1
    have h2 : listMin x ≤ min (x.headD 0) (x.getLastD 0) := le_min hh hl
    linarith
  · have h1 := (linspace_mem_bounds t ht).2
    have h2 : max (x.headD 0) (x.getLastD 0) ≤ listMax x := max_le hh2 hl2
    linarith

/-- C3 (amended): the uniform-spacing validation exists only in the
hann, hamming and lanczos paths; there (with the earlier validations
satisfied) a spacing violation beyond the tolerance of the code — which
is measured against the first difference `x[1] - x[0]`, not the `period`
argument — raises the uniform-spacing error. -/
theorem interp_nonuniform_error (x y : List ℝ) (period : ℝ) (meth : String)
    (factor param : ℤ) (o : Option ℝ)
    (hxy : x.length = y.length) (hfac : 1 ≤ factor) (hx2 : 2 ≤ x.length)
    (hmeth : meth = "hann" ∨ meth = "hamming" ∨ meth = "lanczos")
    (hparam : meth = "lanczos" → 1 ≤ param)
    (hnu1 : (meth = "hann" ∨ meth = "hamming") →
      ¬ allcloseDiff x (x.getD 1 0 - x.getD 0 0)
        (1e-8 * (x.getD 1 0 - x.getD 0 0)))
    (hnu2 : meth = "lanczos" →
      ¬ allcloseDiff x (x.getD 1 0 - x.getD 0 0)
        (1e-8 * |x.getD 1 0 - x.getD 0 0|)) :
    apply_interpolation_method x y period (some meth) factor param o =
      .error "t_orig must be uniformly spaced" := by
  have hxne : x ≠ [] := by
    intro hc
    rw [hc] at hx2
    simp at hx2
  unfold apply_interpolation_method
  simp only [Option.getD_some]
  rw [if_neg (show ¬ x.length ≠ y.length by omega)]
  rw [if_neg (show ¬ factor < 1 by omega)]
  rw [if_neg (by
    intro hc
    rw [List.isEmpty_iff] at hc
    exact hxne hc)]
  rcases hmeth with hm | hm | hm <;> subst hm
  · rw [if_neg (by decide), if_pos (Or.inl rfl)]
    have hws : windowed_sinc_interpolation x (y.map (fun v => v - o.getD 0))
        (linspace (x.headD 0) (x.getLastD 0) (x.length * factor.toNat)) "hann"
        param = .error "t_orig must be uniformly spaced" := by
      unfold windowed_sinc_interpolation
      rw [if_neg (show ¬ x.length < 2 by omega)]
      rw [if_neg (linspace_in_range x _ hxne)]
      rw [if_neg (not_not_intro (Or.inl rfl))]
      rw [if_pos (hnu1 (Or.inl rfl))]
    rw [hws]
    rfl
  · rw [if_neg (by decide), if_pos (Or.inr rfl)]
    have hws : windowed_sinc_interpolation x (y.map (fun v => v - o.getD 0))
        (linspace (x.headD 0) (x.getLastD 0) (x.length * factor.toNat)) "hamming"
        param = .error "t_orig must be uniformly spaced" := by
      unfold windowed_sinc_interpolation
      rw [if_neg (show ¬ x.length < 2 by omega)]
      rw [if_neg (linspace_in_range x _ hxne)]
      rw [if_neg (not_not_intro (Or.inr rfl))]
      rw [if_pos (hnu1 (Or.inr rfl))]
    rw [hws]
    rfl
  · rw [if_neg (by decide), if_neg (by decide), if_pos rfl]
    have hws : lanczos_interpolation x (y.map (fun v => v - o.getD 0))
        (linspace (x.headD 0) (x.getLastD 0) (x.length * factor.toNat)) param =
        .error "t_orig must be uniformly spaced" := by
      unfold lanczos_interpolation
      rw [if_neg (by
        rw [List.length_map]
        omega)]
      rw [if_neg (show ¬ param < 1 by have := hparam rfl; omega)]
      rw [if_neg (linspace_in_range x _ hxne)]
      rw [if_pos (hnu2 rfl)]
    rw [hws]
    rfl

/-- Counterexample to C3 as stated: the ideal-sinc method performs no
spacing validation at all — on the plainly non-uniform grid `[0, 1, 3]`
it returns a result instead of raising the domain error. -/
theorem interp_nonuniform_counterexample :
    (∃ out, apply_interpolation_method [0, 1, 3] [0, 0, 0] 1 (some "sinc") 1 8
        none = .ok out) ∧
    ¬ allcloseDiff [0, 1, 3]
      (([0, 1, 3] : List ℝ).getD 1 0 - ([0, 1, 3] : List ℝ).getD 0 0)
      (1e-8 * (([0, 1, 3] : List ℝ).getD 1 0 - ([0, 1, 3] : List ℝ).getD 0 0)) := by
  constructor
  · exact ⟨_, rfl⟩
  · intro hc
    have h2 : (2 : ℝ) ∈ npDiff [0, 1, 3] := by
      unfold npDiff
      norm_num [List.zipWith]
    have := hc 2 h2
    norm_num at this

/-- Witness for the amended C3 at the concrete non-uniform input
`[0, 1, 3]` with the hann method. -/
theorem interp_nonuniform_error_witness :
    apply_interpolation_method [0, 1, 3] [0, 0, 0] 1 (some "hann") 1 8 none =
      .error "t_orig must be uniformly spaced" := by
  refine interp_nonuniform_error [0, 1, 3] [0, 0, 0] 1 "hann" 1 8 none rfl
    (by norm_num) (by norm_num) (Or.inl rfl) (fun _ => by norm_num) ?_
    (fun h => absurd h (by decide))
  intro _ hc
  have h2 : (2 : ℝ) ∈ npDiff [0, 1, 3] := by
    unfold npDiff
    norm_num [List.zipWith]
  have := hc 2 h2
  norm_num at this


theorem linspace_headD {a b : ℝ} {num : ℕ} (h : 1 ≤ num) :
    (linspace a b num).headD 0 = a := by
  rw [headD_getD, linspace_getD (by omega)]
  norm_num

theorem length_one_lastD_headD {x : List ℝ} (h : x.length = 1) :
    x.getLastD 0 = x.headD 0 := by
  obtain ⟨v, rfl⟩ := List.length_eq_one.mp h
  rfl

theorem linspace_getLastD {a b : ℝ} {num : ℕ} (h1 : 1 ≤ num)
    (hdeg : num = 1 → b = a) : (linspace a b num).getLastD 0 = b := by
  rw [getLastD_getD, linspace_length, linspace_getD (by omega)]
  rcases Nat.lt_or_ge num 2 with hn | hn
  · have hone : num = 1 := by omega
    have hba := hdeg hone
    subst hone
    subst hba
    norm_num
  · have hn1 : ((num : ℝ) - 1) ≠ 0 := by
      have : (2 : ℝ) ≤ (num : ℝ) := by exact_mod_cast hn
      intro hc
      linarith [hc]
    have hcast : ((num - 1 : ℕ) : ℝ) = (num : ℝ) - 1 := by
      rw [Nat.cast_sub (by omega)]
      norm_num
    rw [hcast]
    field_simp

theorem linspace_spacing {a b : ℝ} {num i : ℕ} (h : i + 1 < num) :
    (linspace a b num).getD (i + 1) 0 - (linspace a b num).getD i 0 =
      (b - a) / ((num : ℝ) - 1) := by
  rw [linspace_getD (by omega), linspace_getD (by omega)]
  push_cast
  ring

theorem windowed_sinc_ok_length {t y tn : List ℝ} {w : String} {M : ℤ}
    {out : List ℝ} (h : windowed_sinc_interpolation t y tn w M = .ok out) :
    out.length = tn.length := by
  unfold windowed_sinc_interpolation at h
  split_ifs at h
  all_goals cases h
  all_goals rw [List.length_map]

theorem lanczos_ok_length {t y tn : List ℝ} {a : ℤ} {out : List ℝ}
    (h : lanczos_interpolation t y tn a = .ok out) : out.length = tn.length := by
  unfold lanczos_interpolation at h
  split_ifs at h
  all_goals cases h
  all_goals rw [List.length_map]

theorem linspace_grid_facts (x : List ℝ) (num : ℕ) (hnum : 1 ≤ num)
    (hdeg : num = 1 → x.getLastD 0 = x.headD 0) :
    (linspace (x.headD 0) (x.getLastD 0) num).length = num ∧
    (linspace (x.headD 0) (x.getLastD 0) num).headD 0 = x.headD 0 ∧
    (linspace (x.headD 0) (x.getLastD 0) num).getLastD 0 = x.getLastD 0 ∧
    (∀ i, i + 1 < num →
      (linspace (x.headD 0) (x.getLastD 0) num).getD (i + 1) 0 -
        (linspace (x.headD 0) (x.getLastD 0) num).getD i 0 =
        (x.getLastD 0 - x.headD 0) / ((num : ℝ) - 1)) :=
  ⟨linspace_length _ _ _, linspace_headD hnum, linspace_getLastD hnum hdeg,
    fun _ hi => linspace_spacing hi⟩


/-- C4: whenever the dispatcher returns, `y_fine` has the same length as
`x_fine`; for every method other than fft-resample, `x_fine` is the
nominal grid `linspace(x[0], x[-1], len(x) * factor)` — of length
`len(x) * factor`, starting at `x[0]`, ending at `x[-1]`, evenly
spaced — while for fft-resample the time axis produced by the underlying
algorithm is returned verbatim instead. -/
theorem interp_output_grid (x y : List ℝ) (period : ℝ) (imethod : Option String)
    (factor param : ℤ) (o : Option ℝ) (xf yf : List ℝ)
    (h : apply_interpolation_method x y period imethod factor param o =
      .ok (xf, yf)) :
    yf.length = xf.length ∧
    (imethod.getD "" ≠ "resample" →
      xf = linspace (x.headD 0) (x.getLastD 0) (x.length * factor.toNat) ∧
      xf.length = x.length * factor.toNat ∧
      xf.headD 0 = x.headD 0 ∧
      xf.getLastD 0 = x.getLastD 0 ∧
      (∀ i, i + 1 < xf.length →
        xf.getD (i + 1) 0 - xf.getD i 0 =
          (x.getLastD 0 - x.headD 0) /
            (((x.length * factor.toNat : ℕ) : ℝ) - 1))) ∧
    (imethod.getD "" = "resample" →
      xf = (scipy_resample (y.map (fun v => v - o.getD 0))
        (x.length * factor.toNat) x).2) := by
  unfold apply_interpolation_method at h
  by_cases h1 : x.length ≠ y.length
  · rw [if_pos h1] at h
    cases h
  rw [if_neg h1] at h
  by_cases h2 : factor < 1
  · rw [if_pos h2] at h
    cases h
  rw [if_neg h2] at h
  by_cases h3 : x.isEmpty
  · rw [if_pos h3] at h
    cases h
  rw [if_neg h3] at h
  have hxne : x ≠ [] := by
    intro hc
    rw [hc] at h3
    exact h3 rfl
  have hxlen : 1 ≤ x.length := by
    cases x with
    | nil => exact absurd rfl hxne
    | cons a t => simp
  have hfac : 1 ≤ factor.toNat := by omega
  have hnum : 1 ≤ x.length * factor.toNat := Nat.one_le_iff_ne_zero.mpr (by positivity)
  have hdeg : x.length * factor.toNat = 1 → x.getLastD 0 = x.headD 0 := by
    intro hone
    exact length_one_lastD_headD (by
      rcases Nat.eq_one_of_mul_eq_one_right hone with h4
      omega)
  obtain ⟨hgl, hgh, hglast, hgsp⟩ :=
    linspace_grid_facts x (x.length * factor.toNat) hnum hdeg
  by_cases hm1 : imethod.getD "" = "sinc"
  · rw [if_pos hm1] at h
    injection h with h4
    rw [Prod.mk.injEq] at h4
    obtain ⟨hxf, hyf⟩ := h4
    subst hxf
    subst hyf
    refine ⟨List.length_map _ _, fun _ => ⟨rfl, hgl, hgh, hglast, ?_⟩, ?_⟩
    · intro i hi
      rw [hgl] at hi
      exact hgsp i hi
    · intro hr
      rw [hm1] at hr
      exact absurd hr (by decide)
  rw [if_neg hm1] at h
  by_cases hm2 : imethod.getD "" = "hann" ∨ imethod.getD "" = "hamming"
  · rw [if_pos hm2] at h
    cases hws : windowed_sinc_interpolation x (y.map (fun v => v - o.getD 0))
        (linspace (x.headD 0) (x.getLastD 0) (x.length * factor.toNat))
        (imethod.getD "") param with
    | error e =>
      rw [hws] at h
      cases h
    | ok out =>
      rw [hws] at h
      simp only [Except.map] at h
      injection h with h4
      rw [Prod.mk.injEq] at h4
      obtain ⟨hxf, hyf⟩ := h4
      subst hxf
      subst hyf
      refine ⟨?_, fun _ => ⟨rfl, hgl, hgh, hglast, ?_⟩, ?_⟩
      · rw [List.length_map, windowed_sinc_ok_length hws]
      · intro i hi
        rw [hgl] at hi
        exact hgsp i hi
      · intro hr
        rcases hm2 with hm | hm <;> rw [hm] at hr <;> exact absurd hr (by decide)
  rw [if_neg hm2] at h
  by_cases hm3 : imethod.getD "" = "lanczos"
  · rw [if_pos hm3] at h
    cases hws : lanczos_interpolation x (y.map (fun v => v - o.getD 0))
        (linspace (x.headD 0) (x.getLastD 0) (x.length * factor.toNat)) param with
    | error e =>
      rw [hws] at h
      cases h
    | ok out =>
      rw [hws] at h
      simp only [Except.map] at h
      injection h with h4
      rw [Prod.mk.injEq] at h4
      obtain ⟨hxf, hyf⟩ := h4
      subst hxf
      subst hyf
      refine ⟨?_, fun _ => ⟨rfl, hgl, hgh, hglast, ?_⟩, ?_⟩
      · rw [List.length_map, lanczos_ok_length hws]
      · intro i hi
        rw [hgl] at hi
        exact hgsp i hi
      · intro hr
        rw [hm3] at hr
        exact absurd hr (by decide)
  rw [if_neg hm3] at h
  by_cases hm4 : imethod.getD "" = "resample"
  · rw [if_pos hm4] at h
    injection h with h4
    rw [Prod.mk.injEq] at h4
    obtain ⟨hxf, hyf⟩ := h4
    subst hxf
    subst hyf
    refine ⟨?_, fun hr => absurd hm4 hr, fun _ => rfl⟩
    unfold scipy_resample
    simp [List.length_map, List.length_range]
  rw [if_neg hm4] at h
  by_cases hm5 : imethod.getD "" = "resample_poly"
  · rw [if_pos hm5] at h
    injection h with h4
    rw [Prod.mk.injEq] at h4
    obtain ⟨hxf, hyf⟩ := h4
    subst hxf
    subst hyf
    refine ⟨?_, fun _ => ⟨rfl, hgl, hgh, hglast, ?_⟩, ?_⟩
    · have hxy : x.length = y.length := by omega
      unfold scipy_resample_poly
      simp only [List.length_map, List.length_range, hgl]
      rw [hxy]
    · intro i hi
      rw [hgl] at hi
      exact hgsp i hi
    · intro hr
      rw [hm5] at hr
      exact absurd hr (by decide)
  rw [if_neg hm5] at h
  cases h

/-- Witness for C4 at the ideal-sinc method with factor 2 on a two-sample
input: the fine grid has four points from `x[0]` to `x[-1]`. -/
theorem interp_output_grid_witness :
    ∃ xf yf, apply_interpolation_method [0, 1] [5, 6] 1 (some "sinc") 2 8 none =
      .ok (xf, yf) ∧ yf.length = xf.length ∧ xf.length = 4 := by
  refine ⟨_, _, rfl, ?_, ?_⟩
  · exact (interp_output_grid [0, 1] [5, 6] 1 (some "sinc") 2 8 none _ _ rfl).1
  · have h2 := (interp_output_grid [0, 1] [5, 6] 1 (some "sinc") 2 8 none _ _
      rfl).2.1 (by decide)
    exact h2.2.1

end Sampiclyser
